import Mathlib

/-!
# Verification of the `storyteller_lib` state-merge reducers

This file gives a shallow embedding of the merge reducers defined in
`storyteller_lib/models.py` (`merge_lists`, `merge_dicts`, `merge_characters`,
`merge_scenes`, `merge_chapters`, `merge_revelations`,
`merge_creative_elements`, `merge_plot_threads`, `merge_world_elements`)
and proves or refutes the specification claims about them.

Python runtime values are modelled by the inductive type `Value`
(`None`, strings, integers, lists, insertion-ordered dicts).  Operations
that can raise (`KeyError`, `AttributeError`, `TypeError`, `IndexError`)
return `Except PyErr`.  Each reducer is a statement-by-statement
translation of the Python source; evaluation order and short-circuiting
of `and` / `or` are preserved where an exception could be observed.

A second, heap-based model (`Heap`, `hMergePlotThreads`) captures Python's
reference semantics for `merge_plot_threads`, whose body writes through an
alias of the existing operand; it is used to exhibit the in-place mutation
of the existing snapshot.
-/

/-- Model of the Python values the reducers manipulate: `None`, `str`, `int`,
`list`, `dict`.  Dicts are insertion-ordered association lists with arbitrary
keys, as in CPython.  Equality of `Value`s is structural; Python `==`
coincides with it on everything the reducers compare (strings, ints, `None`,
and lists thereof). -/
inductive Value where
  | none
  | str (s : String)
  | int (n : Int)
  | list (xs : List Value)
  | dict (entries : List (Value × Value))

mutual

/-- Boolean structural equality on `Value` (kernel-reducible). -/
def Value.beq : Value → Value → Bool
  | .none, .none => true
  | .str s, .str t => s == t
  | .int m, .int n => m == n
  | .list xs, .list ys => Value.beqL xs ys
  | .dict d, .dict e => Value.beqP d e
  | _, _ => false

def Value.beqL : List Value → List Value → Bool
  | [], [] => true
  | x :: xs, y :: ys => Value.beq x y && Value.beqL xs ys
  | _, _ => false

def Value.beqP : List (Value × Value) → List (Value × Value) → Bool
  | [], [] => true
  | (k, v) :: d, (l, w) :: e => Value.beq k l && Value.beq v w && Value.beqP d e
  | _, _ => false

end

mutual

theorem Value.eq_of_beq : ∀ a b : Value, Value.beq a b = true → a = b
  | .none, .none, _ => rfl
  | .none, .str _, h => Bool.noConfusion h
  | .none, .int _, h => Bool.noConfusion h
  | .none, .list _, h => Bool.noConfusion h
  | .none, .dict _, h => Bool.noConfusion h
  | .str _, .none, h => Bool.noConfusion h
  | .str s, .str t, h => by
      simp only [Value.beq, beq_iff_eq] at h; rw [h]
  | .str _, .int _, h => Bool.noConfusion h
  | .str _, .list _, h => Bool.noConfusion h
  | .str _, .dict _, h => Bool.noConfusion h
  | .int _, .none, h => Bool.noConfusion h
  | .int _, .str _, h => Bool.noConfusion h
  | .int m, .int n, h => by
      simp only [Value.beq, beq_iff_eq] at h; rw [h]
  | .int _, .list _, h => Bool.noConfusion h
  | .int _, .dict _, h => Bool.noConfusion h
  | .list _, .none, h => Bool.noConfusion h
  | .list _, .str _, h => Bool.noConfusion h
  | .list _, .int _, h => Bool.noConfusion h
  | .list xs, .list ys, h => by
      rw [Value.eqL_of_beqL xs ys h]
  | .list _, .dict _, h => Bool.noConfusion h
  | .dict _, .none, h => Bool.noConfusion h
  | .dict _, .str _, h => Bool.noConfusion h
  | .dict _, .int _, h => Bool.noConfusion h
  | .dict _, .list _, h => Bool.noConfusion h
  | .dict d, .dict e, h => by
      rw [Value.eqP_of_beqP d e h]

theorem Value.eqL_of_beqL : ∀ xs ys : List Value, Value.beqL xs ys = true → xs = ys
  | [], [], _ => rfl
  | [], _ :: _, h => Bool.noConfusion h
  | _ :: _, [], h => Bool.noConfusion h
  | x :: xs, y :: ys, h => by
      simp only [Value.beqL, Bool.and_eq_true] at h
      rw [Value.eq_of_beq x y h.1, Value.eqL_of_beqL xs ys h.2]

theorem Value.eqP_of_beqP :
    ∀ xs ys : List (Value × Value), Value.beqP xs ys = true → xs = ys
  | [], [], _ => rfl
  | [], _ :: _, h => Bool.noConfusion h
  | _ :: _, [], h => Bool.noConfusion h
  | (k, v) :: d, (l, w) :: e, h => by
      simp only [Value.beqP, Bool.and_eq_true] at h
      rw [Value.eq_of_beq k l h.1.1, Value.eq_of_beq v w h.1.2,
        Value.eqP_of_beqP d e h.2]

end

mutual

theorem Value.beq_refl : ∀ a : Value, Value.beq a a = true
  | .none => rfl
  | .str s => by simp [Value.beq]
  | .int n => by simp [Value.beq]
  | .list xs => Value.beqL_refl xs
  | .dict d => Value.beqP_refl d

theorem Value.beqL_refl : ∀ xs : List Value, Value.beqL xs xs = true
  | [] => rfl
  | x :: xs => by
      simp only [Value.beqL, Bool.and_eq_true]
      exact ⟨Value.beq_refl x, Value.beqL_refl xs⟩

theorem Value.beqP_refl : ∀ xs : List (Value × Value), Value.beqP xs xs = true
  | [] => rfl
  | (k, v) :: d => by
      simp only [Value.beqP, Bool.and_eq_true]
      exact ⟨⟨Value.beq_refl k, Value.beq_refl v⟩, Value.beqP_refl d⟩

end

instance : DecidableEq Value := fun a b =>
  if h : Value.beq a b = true then isTrue (Value.eq_of_beq a b h)
  else isFalse (fun hc => h (by rw [hc]; exact Value.beq_refl b))

/-- Insertion-ordered Python dict contents. -/
abbrev PyDict := List (Value × Value)

/-- Exceptions the reducers can raise. -/
inductive PyErr where
  | keyError (k : Value)
  | attributeError
  | typeError
  | indexError
deriving DecidableEq

/-- Monad for fallible Python computations. -/
abbrev PyM := Except PyErr

/-- First-match association-list lookup: CPython `d[k]` read (keys are unique
in any dict Python can build, and lookup/insert below agree on the first
occurrence). -/
def lookupV : PyDict → Value → Option Value
  | [], _ => Option.none
  | (k, v) :: rest, key => if k = key then some v else lookupV rest key

/-- CPython `d[k] = v`: update in place (keeping the key's insertion
position) when present, else append. -/
def insertV : PyDict → Value → Value → PyDict
  | [], key, val => [(key, val)]
  | (k, v) :: rest, key, val =>
      if k = key then (k, val) :: rest else (k, v) :: insertV rest key val

/-- Python truthiness: `None`, `""`, `0`, `[]`, `{}` are falsy. -/
def Value.truthy : Value → Bool
  | .none => false
  | .str s => !s.isEmpty
  | .int n => n != 0
  | .list xs => !xs.isEmpty
  | .dict d => !d.isEmpty

/-- Hashability: lists and dicts cannot be dict keys. -/
def Value.hashable : Value → Bool
  | .list _ => false
  | .dict _ => false
  | _ => true

def Value.isDict : Value → Bool
  | .dict _ => true
  | _ => false

def Value.isList : Value → Bool
  | .list _ => true
  | _ => false

/-- Total read used in specification statements: the value at key `k` of a
dict, `None` otherwise. -/
def vGet (v : Value) (k : Value) : Value :=
  match v with
  | .dict d => (lookupV d k).getD .none
  | _ => .none

/-- Total read with an explicit default (statement-side counterpart of
`d.get(k, default)`). -/
def vGetD (v : Value) (k : Value) (default : Value) : Value :=
  match v with
  | .dict d => (lookupV d k).getD default
  | _ => default

def asList : Value → List Value
  | .list xs => xs
  | _ => []

def asDict : Value → PyDict
  | .dict d => d
  | _ => []

mutual

/-- Python `repr`. -/
def pyRepr : Value → String
  | .none => "None"
  | .str s => String.singleton '\x27' ++ s ++ String.singleton '\x27'
  | .int n => toString n
  | .list xs => "[" ++ pyReprElems xs ++ "]"
  | .dict d => "\x7b" ++ pyReprEntries d ++ "\x7d"

def pyReprElems : List Value → String
  | [] => ""
  | [x] => pyRepr x
  | x :: xs => pyRepr x ++ ", " ++ pyReprElems xs

def pyReprEntries : List (Value × Value) → String
  | [] => ""
  | [(k, v)] => pyRepr k ++ ": " ++ pyRepr v
  | (k, v) :: d => pyRepr k ++ ": " ++ pyRepr v ++ ", " ++ pyReprEntries d

end

/-- Python `str` (as used by f-string interpolation). -/
def pyStr : Value → String
  | .str s => s
  | v => pyRepr v

/-- `v.copy()`: lists and dicts have a `copy` method, other values raise
`AttributeError`.  At the value level a copy is the value itself. -/
def pyCopy : Value → PyM Value
  | .dict d => .ok (.dict d)
  | .list xs => .ok (.list xs)
  | _ => .error .attributeError

/-- `v.items()`: dict method; anything else raises `AttributeError`. -/
def pyItems : Value → PyM PyDict
  | .dict d => .ok d
  | _ => .error .attributeError

/-- `for x in v`: lists yield elements, dicts their keys, strings their
characters; `None` and ints raise `TypeError`. -/
def pyIter : Value → PyM (List Value)
  | .list xs => .ok xs
  | .dict d => .ok (d.map Prod.fst)
  | .str s => .ok (s.toList.map (fun c => .str c.toString))
  | _ => .error .typeError

/-- `len(v)`. -/
def pyLen : Value → PyM Nat
  | .list xs => .ok xs.length
  | .dict d => .ok d.length
  | .str s => .ok s.length
  | _ => .error .typeError

instance : BEq Value := ⟨Value.beq⟩

instance : LawfulBEq Value where
  eq_of_beq h := Value.eq_of_beq _ _ h
  rfl := Value.beq_refl _

/-- Substring test on character lists (Python `needle in hay` for strings). -/
def charsInfix (needle : List Char) : List Char → Bool
  | [] => needle.isEmpty
  | c :: rest => needle.isPrefixOf (c :: rest) || charsInfix needle rest

/-- `k in v` for a key `k`: dict key membership (unhashable keys raise
`TypeError`), list membership, substring test for strings. -/
def pyContains (v : Value) (k : Value) : PyM Bool :=
  match v with
  | .dict d => if k.hashable then .ok (lookupV d k).isSome else .error .typeError
  | .list xs => .ok (xs.contains k)
  | .str s =>
      match k with
      | .str ks => .ok (charsInfix ks.toList s.toList)
      | _ => .error .typeError
  | _ => .error .typeError

/-- `v[k]` for a key `k`: dict subscript; missing key raises `KeyError`,
string/list subscripts by a non-int key and subscripts of `None`/ints raise
`TypeError`. -/
def pyGetItem (v : Value) (k : Value) : PyM Value :=
  match v with
  | .dict d =>
      if k.hashable then
        match lookupV d k with
        | some w => .ok w
        | Option.none => .error (.keyError k)
      else .error .typeError
  | _ => .error .typeError

/-- `v[i]` for an int index (only `[0]` occurs in the source). -/
def pyIndex (v : Value) (i : Nat) : PyM Value :=
  match v with
  | .list xs =>
      match xs[i]? with
      | some w => .ok w
      | Option.none => .error .indexError
  | .str s =>
      match s.toList[i]? with
      | some c => .ok (.str c.toString)
      | Option.none => .error .indexError
  | _ => .error .typeError

/-- `v[k] = w`: dict store; other receivers raise `TypeError`. -/
def pySetItem (v : Value) (k : Value) (w : Value) : PyM Value :=
  match v with
  | .dict d =>
      if k.hashable then .ok (.dict (insertV d k w)) else .error .typeError
  | _ => .error .typeError

/-- `v.get(k, default)`: dict method; other receivers raise
`AttributeError`. -/
def pyGetD (v : Value) (k : Value) (default : Value) : PyM Value :=
  match v with
  | .dict d =>
      if k.hashable then .ok ((lookupV d k).getD default) else .error .typeError
  | _ => .error .attributeError

/-- `v.get(k)` (default `None`). -/
def pyGet (v : Value) (k : Value) : PyM Value := pyGetD v k .none

/-- Python `+`. -/
def pyAdd : Value → Value → PyM Value
  | .list xs, .list ys => .ok (.list (xs ++ ys))
  | .str s, .str t => .ok (.str (s ++ t))
  | .int m, .int n => .ok (.int (m + n))
  | _, _ => .error .typeError

/-- `v.append(w)`: list method; other receivers raise `AttributeError`. -/
def pyAppend : Value → Value → PyM Value
  | .list xs, w => .ok (.list (xs ++ [w]))
  | _, _ => .error .attributeError

deriving instance DecidableEq for Except

/-! ## The reducers of `storyteller_lib/models.py` -/

/-- `merge_lists` (models.py lines 19-25): append `new` to `existing`,
returning the other operand when one is falsy. -/
def merge_lists (existing new : Value) : PyM Value :=
  if !existing.truthy then .ok new
  else if !new.truthy then .ok existing
  else pyAdd existing new

/-- `merge_dicts` (models.py lines 27-32): `new` entries overwrite
`existing` entries. -/
def merge_dicts (existing new : Value) : PyM Value := do
  let result ← pyCopy existing
  let items ← pyItems new
  items.foldlM (fun result kv => pySetItem result kv.1 kv.2) result

/-- Body of the list-field loop of `merge_characters`
(models.py lines 53-61): append the delta's list onto the existing one. -/
def mergeCharListField (field : String) (result_char char_data : Value) :
    PyM Value := do
  let present ← pyContains char_data (.str field)
  if present then do
    let cv ← pyGetItem char_data (.str field)
    if cv = .none then pure result_char
    else if cv.truthy then do
      let presR ← pyContains result_char (.str field)
      if presR then do
        let rv ← pyGetItem result_char (.str field)
        if rv = .none then pySetItem result_char (.str field) cv
        else do
          let sum ← pyAdd rv cv
          pySetItem result_char (.str field) sum
      else pySetItem result_char (.str field) cv
    else pure result_char
  else pure result_char

/-- All list-of-pairs items converted to a relationships dict, python
`{item.get("character", f"char_{i}"): item.get("relationship", "") ...}`
(models.py lines 80-81 and 96-97); `Option.none` models the `TypeError` an
unhashable key raises inside the comprehension (swallowed by the enclosing
`except`). -/
def relPairsToDict : List Value → Nat → PyDict → Option PyDict
  | [], _, acc => some acc
  | item :: rest, i, acc =>
      let key := vGetD item (.str "character") (.str ("char_" ++ toString i))
      if key.hashable then
        relPairsToDict rest (i + 1)
          (insertV acc key (vGetD item (.str "relationship") (.str "")))
      else Option.none

/-- Outcome of the `try` blocks normalizing a non-dict relationships value
(models.py lines 77-87 and 93-101): a list whose items are all dicts becomes
a map, anything else degrades to `{}`. -/
def relNormalize (cv : Value) : Value :=
  match cv with
  | .list xs =>
      if xs.all Value.isDict then
        match relPairsToDict xs 0 [] with
        | some d => .dict d
        | Option.none => .dict []
      else .dict []
  | _ => .dict []

/-- The relationships block of `merge_characters` (models.py lines 64-103). -/
def mergeCharRelationships (result_char char_data : Value) : PyM Value := do
  let present ← pyContains char_data (.str "relationships")
  if !present then pure result_char
  else do
    let cv ← pyGetItem char_data (.str "relationships")
    if cv = .none then pure result_char
    else do
      let presR ← pyContains result_char (.str "relationships")
      let rvOk ←
        if presR then do
          let rv ← pyGetItem result_char (.str "relationships")
          pure (rv != Value.none)
        else pure false
      if rvOk then do
        let rv ← pyGetItem result_char (.str "relationships")
        if rv.isDict && cv.isDict then
          pySetItem result_char (.str "relationships")
            (.dict ((asDict cv).foldl (fun a p => insertV a p.1 p.2) (asDict rv)))
        else if cv.isDict then
          pySetItem result_char (.str "relationships") cv
        else if rv.isDict then
          pure result_char
        else
          pySetItem result_char (.str "relationships") (relNormalize cv)
      else
        if cv.isDict then
          pySetItem result_char (.str "relationships") cv
        else if cv.isList then
          pySetItem result_char (.str "relationships") (relNormalize cv)
        else
          pySetItem result_char (.str "relationships") (.dict [])

/-- Body of the replace-if-truthy field loops (models.py lines 106-108 for
`name`/`role`/`backstory`, lines 174-176 for `title`/`outline`). -/
def replaceFieldIfTruthy (field : String) (result entity_data : Value) :
    PyM Value := do
  let present ← pyContains entity_data (.str field)
  if present then do
    let cv ← pyGetItem entity_data (.str field)
    if cv.truthy then pySetItem result (.str field) cv else pure result
  else pure result

/-- Per-character update of `merge_characters` (models.py lines 50-110). -/
def mergeCharData (existing_char char_data : Value) : PyM Value := do
  let result_char ← pyCopy existing_char
  let result_char ← mergeCharListField "evolution" result_char char_data
  let result_char ← mergeCharListField "known_facts" result_char char_data
  let result_char ← mergeCharListField "secret_facts" result_char char_data
  let result_char ← mergeCharListField "revealed_facts" result_char char_data
  let result_char ← mergeCharRelationships result_char char_data
  let result_char ← replaceFieldIfTruthy "name" result_char char_data
  let result_char ← replaceFieldIfTruthy "role" result_char char_data
  replaceFieldIfTruthy "backstory" result_char char_data

/-- `merge_characters` (models.py lines 34-115). -/
def merge_characters (existing new : Value) : PyM Value :=
  match existing, new with
  | .none, n => .ok (if n = .none then .dict [] else n)
  | e, .none => .ok e
  | e, n => do
      let result ← pyCopy e
      let items ← pyItems n
      items.foldlM (fun result kv => do
        let (char_id, char_data) := kv
        if char_data = .none then pure result
        else do
          let mem ← pyContains result char_id
          if mem then do
            let ec ← pyGetItem result char_id
            let rc ← mergeCharData ec char_data
            pySetItem result char_id rc
          else pySetItem result char_id char_data) result

/-- Per-scene update of `merge_scenes` (models.py lines 122-146). -/
def mergeSceneData (existing_scene scene_data : Value) : PyM Value := do
  let result_scene ← pyCopy existing_scene
  let result_scene ← do
    let p ← pyContains scene_data (.str "content")
    if p then do
      let cv ← pyGetItem scene_data (.str "content")
      if cv.truthy then pySetItem result_scene (.str "content") cv
      else pure result_scene
    else pure result_scene
  let result_scene ← do
    let p ← pyContains scene_data (.str "structured_reflection")
    if p then do
      let cv ← pyGetItem scene_data (.str "structured_reflection")
      if cv.truthy then pySetItem result_scene (.str "structured_reflection") cv
      else pure result_scene
    else pure result_scene
  let p ← pyContains scene_data (.str "reflection_notes")
  if p then do
    let rn ← pyGetItem scene_data (.str "reflection_notes")
    let n ← pyLen rn
    let sentinel ←
      if n = 1 then do
        let first ← pyIndex rn 0
        pure (first == Value.str "Scene has been revised")
      else pure false
    if sentinel then pySetItem result_scene (.str "reflection_notes") rn
    else if rn.truthy then do
      let pr ← pyContains result_scene (.str "reflection_notes")
      if pr then do
        let old ← pyGetItem result_scene (.str "reflection_notes")
        let sum ← pyAdd old rn
        pySetItem result_scene (.str "reflection_notes") sum
      else pySetItem result_scene (.str "reflection_notes") rn
    else pure result_scene
  else pure result_scene

/-- `merge_scenes` (models.py lines 117-151). -/
def merge_scenes (existing new : Value) : PyM Value := do
  let result ← pyCopy existing
  let items ← pyItems new
  items.foldlM (fun result kv => do
    let (scene_id, scene_data) := kv
    let mem ← pyContains result scene_id
    if mem then do
      let es ← pyGetItem result scene_id
      let rs ← mergeSceneData es scene_data
      pySetItem result scene_id rs
    else pySetItem result scene_id scene_data) result

/-- Per-chapter update of `merge_chapters` (models.py lines 157-178). -/
def mergeChapterData (existing_chapter chapter_data : Value) : PyM Value := do
  let result_chapter ← pyCopy existing_chapter
  let result_chapter ← do
    let p ← pyContains chapter_data (.str "scenes")
    if p then do
      let scenes ← pyGetD result_chapter (.str "scenes") (.dict [])
      let cs ← pyGetItem chapter_data (.str "scenes")
      let merged ← merge_scenes scenes cs
      pySetItem result_chapter (.str "scenes") merged
    else pure result_chapter
  let result_chapter ← do
    let p ← pyContains chapter_data (.str "reflection_notes")
    if p then do
      let rn ← pyGetItem chapter_data (.str "reflection_notes")
      if rn.truthy then do
        let pr ← pyContains result_chapter (.str "reflection_notes")
        if pr then do
          let old ← pyGetItem result_chapter (.str "reflection_notes")
          let sum ← pyAdd old rn
          pySetItem result_chapter (.str "reflection_notes") sum
        else pySetItem result_chapter (.str "reflection_notes") rn
      else pure result_chapter
    else pure result_chapter
  let result_chapter ← replaceFieldIfTruthy "title" result_chapter chapter_data
  replaceFieldIfTruthy "outline" result_chapter chapter_data

/-- `merge_chapters` (models.py lines 153-183). -/
def merge_chapters (existing new : Value) : PyM Value := do
  let result ← pyCopy existing
  let items ← pyItems new
  items.foldlM (fun result kv => do
    let (chapter_id, chapter_data) := kv
    let mem ← pyContains result chapter_id
    if mem then do
      let ec ← pyGetItem result chapter_id
      let rc ← mergeChapterData ec chapter_data
      pySetItem result chapter_id rc
    else pySetItem result chapter_id chapter_data) result

/-- Standard-merge loop body of `merge_revelations`
(models.py lines 191-200): lists append, everything else replaces. -/
def mergeRevStdKey (result : Value) (kv : Value × Value) : PyM Value := do
  let (key, values) := kv
  let mem ← pyContains result key
  if mem then
    if values.isList then do
      let rv ← pyGetItem result key
      if rv.isList then do
        let sum ← pyAdd rv values
        pySetItem result key sum
      else pySetItem result key values
    else pySetItem result key values
  else pySetItem result key values

/-- Fold step over existing continuity issues (models.py lines 211-222):
keep the stored issue unless this one is completed and the stored one is
not. -/
def issueFoldOld (best : PyDict) (issue : Value) : PyM PyDict := do
  let chapter ← pyGet issue (.str "after_chapter")
  if !chapter.truthy then pure best
  else if !chapter.hashable then .error .typeError
  else
    match lookupV best chapter with
    | Option.none => pure (insertV best chapter issue)
    | some cur => do
        let rs ← pyGet issue (.str "resolution_status")
        if rs = .str "completed" then do
          let cs ← pyGet cur (.str "resolution_status")
          if cs ≠ .str "completed" then pure (insertV best chapter issue)
          else pure best
        else pure best

/-- Fold step over new continuity issues (models.py lines 225-237): the new
issue wins if it is completed or the stored one is not completed. -/
def issueFoldNew (best : PyDict) (issue : Value) : PyM PyDict := do
  let chapter ← pyGet issue (.str "after_chapter")
  if !chapter.truthy then pure best
  else if !chapter.hashable then .error .typeError
  else
    match lookupV best chapter with
    | Option.none => pure (insertV best chapter issue)
    | some cur => do
        let rs ← pyGet issue (.str "resolution_status")
        if rs = .str "completed" then pure (insertV best chapter issue)
        else do
          let cs ← pyGet cur (.str "resolution_status")
          if cs ≠ .str "completed" then pure (insertV best chapter issue)
          else pure best

/-- Final loop of `merge_revelations` (models.py lines 246-248): every
non-continuity key from the update replaces wholesale. -/
def revReplaceKey (result : Value) (kv : Value × Value) : PyM Value :=
  if kv.1 ≠ Value.str "continuity_issues" then pySetItem result kv.1 kv.2
  else pure result

/-- `merge_revelations` (models.py lines 185-250). -/
def merge_revelations (existing new : Value) : PyM Value := do
  let result ← pyCopy existing
  let std ←
    if !new.truthy then pure true
    else do
      let c ← pyContains new (.str "continuity_issues")
      pure (!c)
  if std then do
    let items ← pyItems new
    items.foldlM mergeRevStdKey result
  else do
    let old_issues ← pyGetD result (.str "continuity_issues") (.list [])
    let new_issues ← pyGetD new (.str "continuity_issues") (.list [])
    let oldList ← pyIter old_issues
    let best ← oldList.foldlM issueFoldOld ([] : PyDict)
    let newList ← pyIter new_issues
    let best ← newList.foldlM issueFoldNew best
    let result ← pySetItem result (.str "continuity_issues")
      (.list (best.map Prod.snd))
    let items ← pyItems new
    items.foldlM revReplaceKey result

/-- `merge_creative_elements` (models.py lines 251-256): plain
replacement. -/
def merge_creative_elements (existing new : Value) : PyM Value := do
  let result ← pyCopy existing
  let items ← pyItems new
  items.foldlM (fun result kv => pySetItem result kv.1 kv.2) result

/-- The composite key of a development-history entry,
`f"{entry.get('chapter')}_{entry.get('scene')}_{entry.get('development')}"`
(models.py lines 292 and 297). -/
def entryKey (entry : Value) : PyM String := do
  let c ← pyGet entry (.str "chapter")
  let s ← pyGet entry (.str "scene")
  let d ← pyGet entry (.str "development")
  pure (pyStr c ++ "_" ++ pyStr s ++ "_" ++ pyStr d)

/-- The composite-key string of a development-history entry of a record
(total form of `entryKey` used in statements; they agree on dicts). -/
def entryKeyT (e : Value) : String :=
  pyStr (vGet e (.str "chapter")) ++ "_" ++ pyStr (vGet e (.str "scene"))
    ++ "_" ++ pyStr (vGet e (.str "development"))

/-- Building the `existing_entries` key set (models.py lines 291-294). -/
def entryKeysAcc (acc : List String) (e : Value) : PyM (List String) := do
  let k ← entryKey e
  pure (acc ++ [k])

/-- Appending one new-history entry unless its key is already known
(models.py lines 296-299). -/
def histAppendStep (keys0 : List String) (eh entry : Value) : PyM Value := do
  let k ← entryKey entry
  if keys0.contains k then pure eh else pyAppend eh entry

/-- Status block of the per-thread update (models.py lines 276-278). -/
def statusStep (existing_thread thread_data : Value) : PyM Value := do
  let ts ← pyGet thread_data (.str "status")
  let es ← pyGet existing_thread (.str "status")
  if ts ≠ es then do
    let v ← pyGetItem thread_data (.str "status")
    pySetItem existing_thread (.str "status") v
  else pure existing_thread

/-- Last chapter/scene block of the per-thread update (models.py lines
281-283). -/
def lastStep (existing_thread thread_data : Value) : PyM Value := do
  let lc ← pyGet thread_data (.str "last_chapter")
  let cond ←
    if lc.truthy then do
      let ls ← pyGet thread_data (.str "last_scene")
      pure ls.truthy
    else pure false
  if cond then do
    let lc2 ← pyGetItem thread_data (.str "last_chapter")
    let et ← pySetItem existing_thread (.str "last_chapter") lc2
    let ls2 ← pyGetItem thread_data (.str "last_scene")
    pySetItem et (.str "last_scene") ls2
  else pure existing_thread

/-- Development-history block of the per-thread update (models.py lines
286-301). -/
def histStep (existing_thread thread_data : Value) : PyM Value := do
  let phist ← pyContains thread_data (.str "development_history")
  let truthyHist ←
    if phist then do
      let h ← pyGetItem thread_data (.str "development_history")
      pure h.truthy
    else pure false
  if truthyHist then do
    let existing_history ← pyGetD existing_thread (.str "development_history") (.list [])
    let new_history ← pyGetItem thread_data (.str "development_history")
    let ehList ← pyIter existing_history
    let existing_entries ← ehList.foldlM entryKeysAcc ([] : List String)
    let nhList ← pyIter new_history
    let existing_history ←
      nhList.foldlM (histAppendStep existing_entries) existing_history
    pySetItem existing_thread (.str "development_history") existing_history
  else pure existing_thread

/-- Per-thread update of `merge_plot_threads` (models.py lines 274-301),
at the level of values (the heap model below captures its in-place
writes). -/
def mergePlotThreadData (existing_thread thread_data : Value) : PyM Value := do
  let existing_thread ← statusStep existing_thread thread_data
  let existing_thread ← lastStep existing_thread thread_data
  histStep existing_thread thread_data

/-- Loop body of `merge_plot_threads` (models.py lines 271-307). -/
def plotThreadStep (result : Value) (kv : Value × Value) : PyM Value := do
  let (thread_name, thread_data) := kv
  let mem ← pyContains result thread_name
  if mem then do
    let et ← pyGetItem result thread_name
    let mt ← mergePlotThreadData et thread_data
    pySetItem result thread_name mt
  else pySetItem result thread_name thread_data

/-- `merge_plot_threads` (models.py lines 258-309). -/
def merge_plot_threads (existing new : Value) : PyM Value := do
  let result ← pyCopy existing
  let items ← pyItems new
  items.foldlM plotThreadStep result

/-- Per-key update inside a world-elements category
(models.py lines 332-350). -/
def mergeWorldCategoryKey (result_category : Value) (kv : Value × Value) :
    PyM Value := do
  let (key, value) := kv
  let mem ← pyContains result_category key
  if mem then
    if value.isList then do
      let rv ← pyGetItem result_category key
      if rv.isList then
        let rvs := asList rv
        let existing_items := rvs.map pyStr
        let newItems := (asList value).filter
          (fun item => !(existing_items.contains (pyStr item)))
        pySetItem result_category key (.list (rvs ++ newItems))
      else
        if value.truthy then pySetItem result_category key value
        else pure result_category
    else if value.isDict then do
      let rv ← pyGetItem result_category key
      if rv.isDict then
        pySetItem result_category key
          (.dict ((asDict value).foldl (fun a p => insertV a p.1 p.2) (asDict rv)))
      else
        if value.truthy then pySetItem result_category key value
        else pure result_category
    else
      if value.truthy then pySetItem result_category key value
      else pure result_category
  else pySetItem result_category key value

/-- Per-category update of `merge_world_elements`
(models.py lines 328-352). -/
def mergeWorldCategory (result_cat elements : Value) : PyM Value := do
  let rc ← pyCopy result_cat
  let items ← pyItems elements
  items.foldlM mergeWorldCategoryKey rc

/-- `merge_world_elements` (models.py lines 311-357). -/
def merge_world_elements (existing new : Value) : PyM Value := do
  let result ← pyCopy existing
  let items ← pyItems new
  items.foldlM (fun result kv => do
    let (category, elements) := kv
    let mem ← pyContains result category
    if mem then do
      let rcat ← pyGetItem result category
      let merged ← mergeWorldCategory rcat elements
      pySetItem result category merged
    else pySetItem result category elements) result

/-! ## Reference-semantics (heap) model of `merge_plot_threads`

`merge_plot_threads` is the one reducer that writes through aliases of its
`existing` operand: `existing.copy()` is shallow, `existing_thread =
result[thread_name]` is the very dict object stored in `existing`, and the
subsequent `existing_thread[...] = ...` / `existing_history.append(...)`
statements mutate it in place.  The value-level translation above is
faithful to the *returned* value; this heap model additionally captures the
store, so the mutation of the existing snapshot becomes observable. -/

/-- A heap object: scalars are immutable, lists and dicts hold addresses of
their elements.  Dict keys are immutable hashables, stored directly as
`Value`s. -/
inductive HObj where
  | hnone
  | hstr (s : String)
  | hint (n : Int)
  | hlist (elems : List Nat)
  | hdict (entries : List (Value × Nat))
deriving DecidableEq

/-- The heap: object at address `a` is the list entry at index `a`;
allocation appends. -/
abbrev Heap := List HObj

/-- Deep read of the value graph at an address (fuel-bounded; every heap the
reducer builds is acyclic, and the theorems pass ample fuel). -/
def deepValue : Nat → Heap → Nat → Value
  | 0, _, _ => .none
  | fuel + 1, h, a =>
    match h[a]? with
    | some .hnone => .none
    | some (.hstr s) => .str s
    | some (.hint n) => .int n
    | some (.hlist es) => .list (es.map (deepValue fuel h))
    | some (.hdict d) => .dict (d.map (fun kv => (kv.1, deepValue fuel h kv.2)))
    | Option.none => .none

def entLookup : List (Value × Nat) → Value → Option Nat
  | [], _ => Option.none
  | (k, v) :: rest, key => if k = key then some v else entLookup rest key

def entInsert : List (Value × Nat) → Value → Nat → List (Value × Nat)
  | [], key, val => [(key, val)]
  | (k, v) :: rest, key, val =>
      if k = key then (k, val) :: rest else (k, v) :: entInsert rest key val

/-- `v.copy()` on the heap: allocates a fresh container sharing the element
addresses (a shallow copy). -/
def hCopy (h : Heap) (a : Nat) : Except PyErr (Heap × Nat) :=
  match h[a]? with
  | some (.hdict d) => .ok (h ++ [.hdict d], h.length)
  | some (.hlist es) => .ok (h ++ [.hlist es], h.length)
  | _ => .error .attributeError

/-- `v.items()` on the heap. -/
def hItems (h : Heap) (a : Nat) : Except PyErr (List (Value × Nat)) :=
  match h[a]? with
  | some (.hdict d) => .ok d
  | _ => .error .attributeError

/-- `k in v` on the heap (dict receiver; the reducer only reaches this with
the dict produced by `existing.copy()`). -/
def hContains (h : Heap) (a : Nat) (k : Value) : Except PyErr Bool :=
  match h[a]? with
  | some (.hdict d) =>
      if k.hashable then .ok (entLookup d k).isSome else .error .typeError
  | _ => .error .typeError

/-- `v[k]` read on the heap: the address of the stored object. -/
def hGetItem (h : Heap) (a : Nat) (k : Value) : Except PyErr Nat :=
  match h[a]? with
  | some (.hdict d) =>
      match entLookup d k with
      | some va => .ok va
      | Option.none => .error (.keyError k)
  | _ => .error .typeError

/-- `v[k] = w`: mutates the dict object at `a` in place. -/
def hSetItem (h : Heap) (a : Nat) (k : Value) (v : Nat) : Except PyErr Heap :=
  match h[a]? with
  | some (.hdict d) => .ok (h.set a (.hdict (entInsert d k v)))
  | _ => .error .typeError

/-- `v.get(k, default)` on the heap, as a deep value (used where the source
only compares or truth-tests the result). -/
def hGetVal (fuel : Nat) (h : Heap) (a : Nat) (k : Value) (default : Value) :
    Except PyErr Value :=
  match h[a]? with
  | some (.hdict d) =>
      match entLookup d k with
      | some va => .ok (deepValue fuel h va)
      | Option.none => .ok default
  | _ => .error .attributeError

/-- `v.get(k)` on the heap, as an address when the key is present. -/
def hGetAddr (h : Heap) (a : Nat) (k : Value) : Except PyErr (Option Nat) :=
  match h[a]? with
  | some (.hdict d) => .ok (entLookup d k)
  | _ => .error .attributeError

/-- Truthiness of the object at an address. -/
def hTruthy (h : Heap) (a : Nat) : Bool :=
  match h[a]? with
  | some .hnone => false
  | some (.hstr s) => !s.isEmpty
  | some (.hint n) => n != 0
  | some (.hlist es) => !es.isEmpty
  | some (.hdict d) => !d.isEmpty
  | Option.none => false

/-- Iterating a list object (the only iteration the mutation theorem
exercises; a non-list here raises in the value-level model as well). -/
def hIterList (h : Heap) (a : Nat) : Except PyErr (List Nat) :=
  match h[a]? with
  | some (.hlist es) => .ok es
  | _ => .error .typeError

/-- `v.append(w)`: mutates the list object at `a` in place. -/
def hAppend (h : Heap) (a : Nat) (v : Nat) : Except PyErr Heap :=
  match h[a]? with
  | some (.hlist es) => .ok (h.set a (.hlist (es ++ [v])))
  | _ => .error .attributeError

/-- `entryKey` on the heap. -/
def hEntryKey (fuel : Nat) (h : Heap) (a : Nat) : Except PyErr String := do
  let c ← hGetVal fuel h a (.str "chapter") .none
  let s ← hGetVal fuel h a (.str "scene") .none
  let d ← hGetVal fuel h a (.str "development") .none
  pure (pyStr c ++ "_" ++ pyStr s ++ "_" ++ pyStr d)

/-- Heap translation of the per-thread update of `merge_plot_threads`
(models.py lines 274-304).  `etA` is `existing_thread = result[thread_name]`
-- the address of the dict also stored in the `existing` operand -- and all
item/append writes mutate the objects at `etA` and at its history list. -/
def hMergeThread (fuel : Nat) (h : Heap) (etA tdA : Nat) :
    Except PyErr Heap := do
  let ts ← hGetVal fuel h tdA (.str "status") .none
  let es ← hGetVal fuel h etA (.str "status") .none
  let h ←
    if ts ≠ es then do
      let v ← hGetItem h tdA (.str "status")
      hSetItem h etA (.str "status") v
    else pure h
  let lc ← hGetVal fuel h tdA (.str "last_chapter") .none
  let cond ←
    if lc.truthy then do
      let ls ← hGetVal fuel h tdA (.str "last_scene") .none
      pure ls.truthy
    else pure false
  let h ←
    if cond then do
      let a1 ← hGetItem h tdA (.str "last_chapter")
      let h ← hSetItem h etA (.str "last_chapter") a1
      let a2 ← hGetItem h tdA (.str "last_scene")
      hSetItem h etA (.str "last_scene") a2
    else pure h
  let phist ← hContains h tdA (.str "development_history")
  let truthyHist ←
    if phist then do
      let v ← hGetItem h tdA (.str "development_history")
      pure (hTruthy h v)
    else pure false
  if truthyHist then do
    let ehOpt ← hGetAddr h etA (.str "development_history")
    let (h, ehA) :=
      match ehOpt with
      | some a => (h, a)
      | Option.none => (h ++ [HObj.hlist []], h.length)
    let nhA ← hGetItem h tdA (.str "development_history")
    let ehElems ← hIterList h ehA
    let keys ← ehElems.foldlM (fun acc ea => do
        let k ← hEntryKey fuel h ea
        pure (acc ++ [k])) ([] : List String)
    let nhElems ← hIterList h nhA
    let h ← nhElems.foldlM (fun h ea => do
        let k ← hEntryKey fuel h ea
        if keys.contains k then pure h else hAppend h ehA ea) h
    hSetItem h etA (.str "development_history") ehA
  else pure h

/-- Heap translation of `merge_plot_threads` (models.py lines 258-309):
returns the address of `result` together with the post-state of the heap. -/
def hMergePlotThreads (fuel : Nat) (h : Heap) (existingA newA : Nat) :
    Except PyErr (Heap × Nat) := do
  let (h, resA) ← hCopy h existingA
  let items ← hItems h newA
  let h ← items.foldlM (fun h kv => do
      let (tname, tdA) := kv
      let mem ← hContains h resA tname
      if mem then do
        let etA ← hGetItem h resA tname
        let h ← hMergeThread fuel h etA tdA
        hSetItem h resA tname etA
      else hSetItem h resA tname tdA) h
  pure (h, resA)

/-- Initial heap for the mutation scenario: address 2 holds the existing
snapshot `{"t1": {"status": "open", "development_history": [{"chapter": "1",
"scene": "1", "development": "d1"}]}}`, address 9 the delta
`{"t1": {"status": "resolved", "development_history": [{"chapter": "2",
"scene": "1", "development": "d2"}]}}`. -/
def c5Heap : Heap :=
  [ .hstr "open",                                                  -- 0
    .hdict [(.str "status", 0), (.str "development_history", 6)],  -- 1
    .hdict [(.str "t1", 1)],                                       -- 2  existing
    .hstr "resolved",                                              -- 3
    .hdict [(.str "status", 3), (.str "development_history", 8)],  -- 4
    .hdict [(.str "chapter", 10), (.str "scene", 10), (.str "development", 11)], -- 5
    .hlist [5],                                                    -- 6
    .hdict [(.str "chapter", 12), (.str "scene", 10), (.str "development", 13)], -- 7
    .hlist [7],                                                    -- 8
    .hdict [(.str "t1", 4)],                                       -- 9  new
    .hstr "1",                                                     -- 10
    .hstr "d1",                                                    -- 11
    .hstr "2",                                                     -- 12
    .hstr "d2" ]                                                   -- 13

/-- The deep value of the existing snapshot after running the merge (or
`None` if the merge raised). -/
def c5After : Value :=
  match hMergePlotThreads 20 c5Heap 2 9 with
  | .ok (h, _) => deepValue 20 h 2
  | .error _ => .none

/-! ## Helper lemmas -/

theorem bindOk {α β : Type} {m : PyM α} {f : α → PyM β} {r : β}
    (h : (m >>= f) = .ok r) : ∃ a, m = .ok a ∧ f a = .ok r := by
  cases m with
  | ok a => exact ⟨a, rfl, h⟩
  | error e => exact absurd h (by simp [Bind.bind, Except.bind])

theorem bind_ok_l {α β : Type} (a : α) (f : α → PyM β) :
    ((Except.ok a : PyM α) >>= f) = f a := rfl

theorem bind_err_l {α β : Type} (e : PyErr) (f : α → PyM β) :
    ((Except.error e : PyM α) >>= f) = Except.error e := rfl

theorem lookupV_insertV_self (d : PyDict) (k : Value) (v : Value) :
    lookupV (insertV d k v) k = some v := by
  induction d with
  | nil => simp [insertV, lookupV]
  | cons kv rest ih =>
      obtain ⟨k0, v0⟩ := kv
      by_cases h : k0 = k
      · simp [insertV, h, lookupV]
      · simp [insertV, h, lookupV, ih]

theorem lookupV_insertV_ne (d : PyDict) (k k0 : Value) (v : Value)
    (h : k0 ≠ k) : lookupV (insertV d k v) k0 = lookupV d k0 := by
  induction d with
  | nil => simp [insertV, lookupV, Ne.symm h]
  | cons kv rest ih =>
      obtain ⟨k1, v1⟩ := kv
      by_cases h1 : k1 = k
      · subst h1
        simp [insertV, lookupV, Ne.symm h]
      · simp [insertV, h1, lookupV, ih]

theorem insertV_self (d : PyDict) (k : Value) (v : Value)
    (h : lookupV d k = some v) : insertV d k v = d := by
  induction d with
  | nil => simp [lookupV] at h
  | cons kv rest ih =>
      obtain ⟨k0, v0⟩ := kv
      by_cases h0 : k0 = k
      · subst h0
        simp [lookupV] at h
        simp [insertV, h]
      · simp [lookupV, h0] at h
        simp [insertV, h0, ih h]

/-! ## Claims -/

/-- C1: the spec says the merge can never raise, but `merge_plot_threads`
evaluates `thread_data["status"]` after only `.get`-guarding it: a delta
thread for an existing thread that omits the `status` key (while the
statuses differ) raises `KeyError("status")`. -/
theorem mergeRaisesOnPlotThreadDeltaWithoutStatus :
    merge_plot_threads
      (.dict [(.str "t1", .dict [(.str "status", .str "open")])])
      (.dict [(.str "t1", .dict [])]) = .error (.keyError (.str "status")) := by
  decide

/-- C2 counterexample: `merge_scenes` is not null-tolerant.  With a null
`existing` operand it raises `AttributeError` (from `None.copy()`) instead
of behaving as the empty dict, which returns the merged dict. -/
theorem mergersNotNullTolerantCounterexample :
    merge_scenes Value.none (.dict []) = .error .attributeError ∧
    merge_scenes (.dict []) (.dict []) = .ok (.dict []) :=
  ⟨by decide, by decide⟩

/-- C2 amended: only `merge_characters` tolerates a null operand in both
directions (a null `new` returns `existing` unchanged; a null `existing`
returns `new` verbatim, or `{}` when `new` is also null); `merge_lists`
treats a null operand as falsy (a null `existing` returns `new` verbatim,
a null `new` is a no-op only when `existing` is truthy); the remaining
seven mergers (`merge_dicts`, `merge_scenes`, `merge_chapters`,
`merge_revelations`, `merge_creative_elements`, `merge_plot_threads`,
`merge_world_elements`) raise `AttributeError` when either operand is
null. -/
theorem nullToleranceOfMergers :
    (∀ n : Value,
      merge_characters Value.none n = .ok (if n = Value.none then .dict [] else n))
  ∧ (∀ e : Value,
      merge_characters e Value.none = .ok (if e = Value.none then .dict [] else e))
  ∧ (∀ n : Value, merge_lists Value.none n = .ok n)
  ∧ (∀ e : Value, e.truthy → merge_lists e Value.none = .ok e)
  ∧ (∀ n : Value, merge_dicts Value.none n = .error .attributeError)
  ∧ (∀ e : Value, merge_dicts e Value.none = .error .attributeError)
  ∧ (∀ n : Value, merge_scenes Value.none n = .error .attributeError)
  ∧ (∀ e : Value, merge_scenes e Value.none = .error .attributeError)
  ∧ (∀ n : Value, merge_chapters Value.none n = .error .attributeError)
  ∧ (∀ e : Value, merge_chapters e Value.none = .error .attributeError)
  ∧ (∀ n : Value, merge_revelations Value.none n = .error .attributeError)
  ∧ (∀ e : Value, merge_revelations e Value.none = .error .attributeError)
  ∧ (∀ n : Value, merge_creative_elements Value.none n = .error .attributeError)
  ∧ (∀ e : Value, merge_creative_elements e Value.none = .error .attributeError)
  ∧ (∀ n : Value, merge_plot_threads Value.none n = .error .attributeError)
  ∧ (∀ e : Value, merge_plot_threads e Value.none = .error .attributeError)
  ∧ (∀ n : Value, merge_world_elements Value.none n = .error .attributeError)
  ∧ (∀ e : Value, merge_world_elements e Value.none = .error .attributeError) := by
  refine ⟨fun n => by cases n <;> rfl, fun e => by cases e <;> rfl,
    fun n => rfl, fun e he => ?_,
    fun n => rfl, fun e => by cases e <;> rfl,
    fun n => rfl, fun e => by cases e <;> rfl,
    fun n => rfl, fun e => by cases e <;> rfl,
    fun n => rfl, fun e => by cases e <;> rfl,
    fun n => rfl, fun e => by cases e <;> rfl,
    fun n => rfl, fun e => by cases e <;> rfl,
    fun n => rfl, fun e => by cases e <;> rfl⟩
  cases e <;> simp_all [merge_lists, Value.truthy]

/-- C2 witness for the hypothesis-bearing conjunct. -/
theorem nullToleranceOfMergers_witness :
    merge_lists (.list [Value.int 1]) Value.none = .ok (.list [Value.int 1]) :=
  nullToleranceOfMergers.2.2.2.1 (.list [Value.int 1]) (by decide)

/-- C5: the spec requires value semantics (no mutation of the existing
snapshot), but `merge_plot_threads` writes through an alias of the existing
thread dict.  In the heap model, merging the existing snapshot at address 2
with the delta at address 9 changes the deep value of the existing snapshot
itself: its thread status flips to "resolved" and the delta's history entry
is appended into its `development_history` list. -/
theorem mergePlotThreadsMutatesExistingSnapshot :
    deepValue 20 c5Heap 2 =
      .dict [(.str "t1", .dict [(.str "status", .str "open"),
        (.str "development_history",
          .list [.dict [(.str "chapter", .str "1"), (.str "scene", .str "1"),
            (.str "development", .str "d1")]])])]
  ∧ c5After =
      .dict [(.str "t1", .dict [(.str "status", .str "resolved"),
        (.str "development_history",
          .list [.dict [(.str "chapter", .str "1"), (.str "scene", .str "1"),
            (.str "development", .str "d1")],
            .dict [(.str "chapter", .str "2"), (.str "scene", .str "1"),
            (.str "development", .str "d2")]])])]
  ∧ c5After ≠ deepValue 20 c5Heap 2 :=
  ⟨by decide, by decide, by decide⟩

/-- C10: the empty delta is an identity for every reducer: merging an empty
partial value leaves the existing collection unchanged. -/
theorem emptyDeltaIsIdentity :
    (∀ d : PyDict, merge_characters (.dict d) (.dict []) = .ok (.dict d))
  ∧ (∀ d : PyDict, merge_scenes (.dict d) (.dict []) = .ok (.dict d))
  ∧ (∀ d : PyDict, merge_chapters (.dict d) (.dict []) = .ok (.dict d))
  ∧ (∀ d : PyDict, merge_revelations (.dict d) (.dict []) = .ok (.dict d))
  ∧ (∀ d : PyDict, merge_creative_elements (.dict d) (.dict []) = .ok (.dict d))
  ∧ (∀ d : PyDict, merge_plot_threads (.dict d) (.dict []) = .ok (.dict d))
  ∧ (∀ d : PyDict, merge_world_elements (.dict d) (.dict []) = .ok (.dict d))
  ∧ (∀ d : PyDict, merge_dicts (.dict d) (.dict []) = .ok (.dict d))
  ∧ (∀ xs : List Value, merge_lists (.list xs) (.list []) = .ok (.list xs)) := by
  refine ⟨fun d => rfl, fun d => rfl, fun d => rfl, fun d => rfl, fun d => rfl,
    fun d => rfl, fun d => rfl, fun d => rfl, fun xs => ?_⟩
  cases xs <;> rfl

/-- C8: merging a scene delta into an existing scene: the single-entry
sentinel `["Scene has been revised"]` replaces the notes list entirely, any
other non-empty `reflection_notes` delta is appended to the existing notes
(and an empty one is a no-op). -/
theorem sceneNotesSentinelReplacesElseAppends
    (e scene : PyDict) (sid : String) (xs ys : List Value)
    (hes : lookupV e (.str sid) = some (.dict scene))
    (hnotes : lookupV scene (.str "reflection_notes") = some (.list xs)) :
    merge_scenes (.dict e)
      (.dict [(.str sid, .dict [(.str "reflection_notes", .list ys)])]) =
      .ok (.dict (insertV e (.str sid)
        (.dict (insertV scene (.str "reflection_notes")
          (.list (if ys = [.str "Scene has been revised"] then ys
            else if ys = [] then xs else xs ++ ys)))))) := by
  simp [merge_scenes, mergeSceneData, pyCopy, pyItems, pyContains, pyGetItem,
    pySetItem, pyLen, pyIndex, pyAdd, Value.hashable, Value.truthy, lookupV,
    hes, hnotes, List.foldlM, bind_ok_l]
  rcases ys with _ | ⟨y, _ | ⟨y2, rest⟩⟩
  · simp [insertV_self scene _ _ hnotes]
  · by_cases hy : y = Value.str "Scene has been revised"
    · subst hy; simp [bind_ok_l]
    · simp [hy, bind_ok_l]
  · simp [bind_ok_l]

/-- C8 witness: an existing scene with 5 prior notes merged with the
sentinel delta has exactly 1 note afterward. -/
theorem sceneNotesSentinelReplacesElseAppends_witness :
    merge_scenes
      (.dict [(.str "s1", .dict [(.str "reflection_notes",
        .list [.str "n1", .str "n2", .str "n3", .str "n4", .str "n5"])])])
      (.dict [(.str "s1", .dict [(.str "reflection_notes",
        .list [.str "Scene has been revised"])])]) =
      .ok (.dict [(.str "s1", .dict [(.str "reflection_notes",
        .list [.str "Scene has been revised"])])]) :=
  sceneNotesSentinelReplacesElseAppends
    [(.str "s1", .dict [(.str "reflection_notes",
      .list [.str "n1", .str "n2", .str "n3", .str "n4", .str "n5"])])]
    [(.str "reflection_notes",
      .list [.str "n1", .str "n2", .str "n3", .str "n4", .str "n5"])]
    "s1" [.str "n1", .str "n2", .str "n3", .str "n4", .str "n5"]
    [.str "Scene has been revised"] (by decide) (by decide)

/-- C6 counterexample: when the delta contains a `continuity_issues` key,
`reader` is replaced wholesale by the delta's value instead of being
appended (`["a"]` ++ `["b"]` would be `["a", "b"]`; the merge yields
`["b"]`). -/
theorem readerReplacedWhenDeltaHasContinuityIssues :
    merge_revelations (.dict [(.str "reader", .list [.str "a"])])
      (.dict [(.str "reader", .list [.str "b"]),
        (.str "continuity_issues", .list [])]) =
      .ok (.dict [(.str "reader", .list [.str "b"]),
        (.str "continuity_issues", .list [])])
  ∧ Value.list [.str "b"] ≠ .list [.str "a", .str "b"] :=
  ⟨by decide, by decide⟩

theorem lookupV_none_of_not_mem (d : PyDict) (k : Value)
    (h : ∀ kv ∈ d, kv.1 ≠ k) : lookupV d k = Option.none := by
  induction d with
  | nil => rfl
  | cons kv0 rest ih =>
      obtain ⟨k0, v0⟩ := kv0
      have hne : k0 ≠ k := h (k0, v0) (List.mem_cons_self _ _)
      simp only [lookupV, hne, if_false, ite_false]
      exact ih (fun kv hm => h kv (List.mem_cons_of_mem _ hm))

/-- One step of the standard-path loop of `merge_revelations` (models.py
lines 191-200): a list value appends onto an existing list value, anything
else replaces, and an absent key is inserted. -/
theorem mergeRevStdKey_shape (res : PyDict) (kv : Value × Value) (mid : Value)
    (h : mergeRevStdKey (.dict res) kv = .ok mid) :
    kv.1.hashable = true ∧
      mid = .dict (insertV res kv.1 (match lookupV res kv.1 with
        | some rv => if kv.2.isList && rv.isList
            then Value.list (asList rv ++ asList kv.2) else kv.2
        | Option.none => kv.2)) := by
  obtain ⟨key, values⟩ := kv
  unfold mergeRevStdKey at h
  rcases hh : key.hashable with _ | _
  · simp [pyContains, hh, bind_err_l] at h
  · refine ⟨rfl, ?_⟩
    rcases hlk : lookupV res key with _ | rv
    · simp only [pyContains, hh, if_true, ite_true, hlk, Option.isSome_none,
        Bool.false_eq_true, if_false, ite_false, bind_ok_l, pySetItem,
        Except.ok.injEq] at h
      exact h.symm
    · rcases hvl : values.isList with _ | _
      · simp only [pyContains, hh, if_true, ite_true, hlk, Option.isSome_some,
          bind_ok_l, hvl, Bool.false_eq_true, if_false, ite_false, pySetItem,
          Except.ok.injEq] at h
        simp only [hvl, Bool.false_and, Bool.false_eq_true, if_false,
          ite_false]
        exact h.symm
      · obtain ⟨vs, rfl⟩ : ∃ vs, values = Value.list vs := by
          cases values <;> simp_all [Value.isList]
        cases rv <;>
          simp only [pyContains, hh, if_true, ite_true, hlk, Option.isSome_some,
            bind_ok_l, Value.isList, pyGetItem, pyAdd, pySetItem,
            Bool.false_eq_true, if_false, ite_false, Except.ok.injEq] at h <;>
          exact h.symm

/-- The standard path of `merge_revelations` characterized per key: keys
absent from the delta are untouched; a delta entry appends onto the stored
value when both are lists and replaces it otherwise. -/
theorem revStdFold_char :
    ∀ (items : PyDict) (res : PyDict) (R : Value),
    (items.map Prod.fst).Nodup →
    List.foldlM mergeRevStdKey (.dict res) items = .ok R →
    ∃ Rd : PyDict, R = .dict Rd ∧
      (∀ k, lookupV items k = Option.none → lookupV Rd k = lookupV res k) ∧
      (∀ k v, lookupV items k = some v →
        lookupV Rd k = some (match lookupV res k with
          | some rv => if v.isList && rv.isList
              then Value.list (asList rv ++ asList v) else v
          | Option.none => v)) := by
  intro items
  induction items with
  | nil =>
      intro res R _ h
      simp only [List.foldlM, pure, Except.pure, Except.ok.injEq] at h
      refine ⟨res, h.symm, fun k _ => rfl, fun k v hkv => ?_⟩
      simp [lookupV] at hkv
  | cons kv rest ih =>
      intro res R hnd h
      obtain ⟨key, val⟩ := kv
      simp only [List.foldlM] at h
      obtain ⟨mid, h1, h2⟩ := bindOk h
      obtain ⟨hh, hmid⟩ := mergeRevStdKey_shape res (key, val) mid h1
      subst hmid
      have hndc : (key :: rest.map Prod.fst).Nodup := by simpa using hnd
      have hnd2 := List.nodup_cons.mp hndc
      obtain ⟨Rd, hR, hmiss, hhit⟩ := ih _ R hnd2.2 h2
      refine ⟨Rd, hR, ?_, ?_⟩
      · intro k hk
        simp only [lookupV] at hk
        by_cases hb : key = k
        · rw [if_pos hb] at hk
          exact absurd hk (by simp)
        · rw [if_neg hb] at hk
          rw [hmiss k hk]
          exact lookupV_insertV_ne res key k _ (Ne.symm hb)
      · intro k v hkv
        simp only [lookupV] at hkv
        by_cases hb : key = k
        · subst hb
          rw [if_pos rfl] at hkv
          have hv := Option.some.inj hkv
          subst hv
          have hrnone : lookupV rest key = Option.none := by
            apply lookupV_none_of_not_mem
            intro kv2 hm hc
            exact hnd2.1 (List.mem_map.mpr ⟨kv2, hm, hc⟩)
          rw [hmiss key hrnone]
          exact lookupV_insertV_self res key _
        · rw [if_neg hb] at hkv
          have hgot := hhit k v hkv
          rwa [lookupV_insertV_ne res key k _ (Ne.symm hb)] at hgot

/-- The final loop of the special path of `merge_revelations` (models.py
lines 246-248) characterized per key: every non-continuity key of the delta
replaces wholesale; keys absent from the delta are untouched. -/
theorem revReplaceFold_char :
    ∀ (items : PyDict) (res : PyDict) (R : Value),
    (items.map Prod.fst).Nodup →
    List.foldlM revReplaceKey (.dict res) items = .ok R →
    ∃ Rd : PyDict, R = .dict Rd ∧
      (∀ k, lookupV items k = Option.none →
        k ≠ Value.str "continuity_issues" → lookupV Rd k = lookupV res k) ∧
      (∀ k v, k ≠ Value.str "continuity_issues" →
        lookupV items k = some v → lookupV Rd k = some v) := by
  intro items
  induction items with
  | nil =>
      intro res R _ h
      simp only [List.foldlM, pure, Except.pure, Except.ok.injEq] at h
      refine ⟨res, h.symm, fun k _ _ => rfl, fun k v _ hkv => ?_⟩
      simp [lookupV] at hkv
  | cons kv rest ih =>
      intro res R hnd h
      obtain ⟨key, val⟩ := kv
      simp only [List.foldlM] at h
      obtain ⟨mid, h1, h2⟩ := bindOk h
      have hndc : (key :: rest.map Prod.fst).Nodup := by simpa using hnd
      have hnd2 := List.nodup_cons.mp hndc
      have h1x : (if key ≠ Value.str "continuity_issues"
          then pySetItem (.dict res) key val
          else pure (.dict res)) = .ok mid := h1
      by_cases hkc : key = Value.str "continuity_issues"
      · subst hkc
        rw [if_neg (not_not_intro rfl)] at h1x
        have hmid : Value.dict res = mid := Except.ok.inj h1x
        subst hmid
        obtain ⟨Rd, hR, hmiss, hhit⟩ := ih res R hnd2.2 h2
        refine ⟨Rd, hR, ?_, ?_⟩
        · intro k hk hkne
          apply hmiss k ?_ hkne
          simp only [lookupV] at hk
          rwa [if_neg (Ne.symm hkne)] at hk
        · intro k v hkne hkv
          apply hhit k v hkne
          simp only [lookupV] at hkv
          rwa [if_neg (Ne.symm hkne)] at hkv
      · rw [if_pos hkc] at h1x
        rcases hh : key.hashable with _ | _
        · simp [pySetItem, hh] at h1x
        · simp only [pySetItem, hh, if_true, ite_true, Except.ok.injEq] at h1x
          have hmid : Value.dict (insertV res key val) = mid := h1x
          subst hmid
          obtain ⟨Rd, hR, hmiss, hhit⟩ := ih (insertV res key val) R hnd2.2 h2
          refine ⟨Rd, hR, ?_, ?_⟩
          · intro k hk hkne
            simp only [lookupV] at hk
            by_cases hb : key = k
            · rw [if_pos hb] at hk
              exact absurd hk (by simp)
            · rw [if_neg hb] at hk
              rw [hmiss k hk hkne]
              exact lookupV_insertV_ne res key k val (Ne.symm hb)
          · intro k v hkne hkv
            simp only [lookupV] at hkv
            by_cases hb : key = k
            · subst hb
              rw [if_pos rfl] at hkv
              have hv := Option.some.inj hkv
              subst hv
              have hrnone : lookupV rest key = Option.none := by
                apply lookupV_none_of_not_mem
                intro kv2 hm hc
                exact hnd2.1 (List.mem_map.mpr ⟨kv2, hm, hc⟩)
              rw [hmiss key hrnone hkne]
              exact lookupV_insertV_self res key val
            · rw [if_neg hb] at hkv
              exact hhit k v hkne hkv

/-- C6 amended: when the delta has no `continuity_issues` key,
`merge_revelations` merges every key (in particular `reader` and
`characters`) on the standard path: a delta entry appends onto the stored
value when both are lists and replaces it otherwise, keys new to the
document are inserted, and keys absent from the delta are untouched.  When
the delta does contain `continuity_issues`, every other key of the delta
(in particular `reader` and `characters`) is replaced wholesale by the
delta's value (models.py lines 246-248). -/
theorem readerCharactersAppendWithoutContinuityKey :
    (∀ (ed nd : PyDict) (R : Value),
      (nd.map Prod.fst).Nodup →
      lookupV nd (.str "continuity_issues") = Option.none →
      merge_revelations (.dict ed) (.dict nd) = .ok R →
      ∃ Rd : PyDict, R = .dict Rd ∧
        (∀ k, lookupV nd k = Option.none → lookupV Rd k = lookupV ed k) ∧
        (∀ k v, lookupV nd k = some v →
          lookupV Rd k = some (match lookupV ed k with
            | some rv => if v.isList && rv.isList
                then Value.list (asList rv ++ asList v) else v
            | Option.none => v))) ∧
    (∀ (ed nd : PyDict) (R : Value),
      (nd.map Prod.fst).Nodup →
      (lookupV nd (.str "continuity_issues")).isSome = true →
      merge_revelations (.dict ed) (.dict nd) = .ok R →
      ∃ Rd : PyDict, R = .dict Rd ∧
        ∀ k v, k ≠ Value.str "continuity_issues" →
          lookupV nd k = some v → lookupV Rd k = some v) := by
  constructor
  · intro ed nd R hnd hno h
    unfold merge_revelations at h
    obtain ⟨res0, hc, h⟩ := bindOk h
    have hres : Value.dict ed = res0 := Except.ok.inj hc
    subst hres
    rcases ht : (Value.dict nd).truthy with _ | _
    · simp only [ht, Bool.not_false, eq_self_iff_true, if_true, ite_true,
        bind_ok_l, pure, Except.pure] at h
      obtain ⟨its, hi, h2⟩ := bindOk h
      have hits : nd = its := Except.ok.inj hi
      subst hits
      exact revStdFold_char nd ed R hnd h2
    · simp only [ht, Bool.not_true, Bool.false_eq_true, if_false, ite_false,
        pyContains, Value.hashable, eq_self_iff_true, if_true, ite_true, hno,
        Option.isSome_none, Bool.not_false, bind_ok_l, pure,
        Except.pure] at h
      obtain ⟨its, hi, h2⟩ := bindOk h
      have hits : nd = its := Except.ok.inj hi
      subst hits
      exact revStdFold_char nd ed R hnd h2
  · intro ed nd R hnd hsome h
    unfold merge_revelations at h
    obtain ⟨res0, hc, h⟩ := bindOk h
    have hres : Value.dict ed = res0 := Except.ok.inj hc
    subst hres
    obtain ⟨w, hw⟩ := Option.isSome_iff_exists.mp hsome
    have hndt : (Value.dict nd).truthy = true := by
      cases nd with
      | nil => simp [lookupV] at hw
      | cons kv rest => rfl
    simp only [hndt, Bool.not_true, Bool.false_eq_true, if_false, ite_false,
      pyContains, Value.hashable, eq_self_iff_true, if_true, ite_true, hw,
      Option.isSome_some, bind_ok_l, pure, Except.pure] at h
    obtain ⟨old_issues, ho, h⟩ := bindOk h
    obtain ⟨new_issues, hni, h⟩ := bindOk h
    obtain ⟨oldList, hol, h⟩ := bindOk h
    obtain ⟨best1, hb1, h⟩ := bindOk h
    obtain ⟨newList, hnl, h⟩ := bindOk h
    obtain ⟨best2, hb2, h⟩ := bindOk h
    obtain ⟨res1, hset, h⟩ := bindOk h
    obtain ⟨its, hi, h⟩ := bindOk h
    have hits : nd = its := Except.ok.inj hi
    subst hits
    have hres1 : Value.dict (insertV ed (.str "continuity_issues")
        (.list (best2.map Prod.snd))) = res1 := by
      simp only [pySetItem, Value.hashable, if_true, ite_true,
        Except.ok.injEq] at hset
      exact hset
    subst hres1
    obtain ⟨Rd, hR, _, hhit⟩ := revReplaceFold_char nd _ R hnd h
    exact ⟨Rd, hR, hhit⟩

def c6ed : PyDict := [(.str "reader", .list [.str "a"]),
  (.str "characters", .list [.str "x"])]

def c6nd : PyDict := [(.str "reader", .list [.str "b"]),
  (.str "characters", .list [.str "y"])]

def c6rd : PyDict := [(.str "reader", .list [.str "a", .str "b"]),
  (.str "characters", .list [.str "x", .str "y"])]

def c6nd2 : PyDict := [(.str "reader", .list [.str "b"]),
  (.str "characters", .list [.str "y"]),
  (.str "continuity_issues", .list [])]

def c6rd2 : PyDict := [(.str "reader", .list [.str "b"]),
  (.str "characters", .list [.str "y"]),
  (.str "continuity_issues", .list [])]

/-- Witness for C6 at concrete documents: without a `continuity_issues`
key the delta's `reader` and `characters` lists append onto the existing
ones, and with a `continuity_issues` key they replace them wholesale. -/
theorem readerCharactersAppendWithoutContinuityKey_witness :
    (merge_revelations (.dict c6ed) (.dict c6nd) = .ok (.dict c6rd) ∧
     lookupV c6rd (.str "reader") = some (.list [.str "a", .str "b"]) ∧
     lookupV c6rd (.str "characters") = some (.list [.str "x", .str "y"]) ∧
     (∃ Rd : PyDict, Value.dict c6rd = .dict Rd ∧
        (∀ k, lookupV c6nd k = Option.none → lookupV Rd k = lookupV c6ed k) ∧
        (∀ k v, lookupV c6nd k = some v →
          lookupV Rd k = some (match lookupV c6ed k with
            | some rv => if v.isList && rv.isList
                then Value.list (asList rv ++ asList v) else v
            | Option.none => v)))) ∧
    (merge_revelations (.dict c6ed) (.dict c6nd2) = .ok (.dict c6rd2) ∧
     lookupV c6rd2 (.str "reader") = some (.list [.str "b"]) ∧
     lookupV c6rd2 (.str "characters") = some (.list [.str "y"]) ∧
     (∃ Rd : PyDict, Value.dict c6rd2 = .dict Rd ∧
        ∀ k v, k ≠ Value.str "continuity_issues" →
          lookupV c6nd2 k = some v → lookupV Rd k = some v)) :=
  ⟨⟨by decide, by decide, by decide,
    readerCharactersAppendWithoutContinuityKey.1 c6ed c6nd (.dict c6rd)
      (by decide) (by decide) (by decide)⟩,
   ⟨by decide, by decide, by decide,
    readerCharactersAppendWithoutContinuityKey.2 c6ed c6nd2 (.dict c6rd2)
      (by decide) (by decide) (by decide)⟩⟩

/-- A continuity issue record for chapter `c` with the given
`resolution_status`. -/
def mkIssue (c : String) (s : Value) : Value :=
  .dict [(.str "after_chapter", .str c), (.str "resolution_status", s)]

/-- C4: the continuity-issue precedence rule, for any chapter key and any
pair of resolution statuses: the new issue replaces the existing one
exactly when the new one is completed or the existing one is not
completed; in particular a completed new issue displaces an open existing
one, and a completed existing issue is never displaced by a non-completed
new one. -/
theorem continuityCompletedWinsPrecedence
    (c : String) (hC : (Value.str c).truthy = true) (s1 s2 : Value) :
    merge_revelations
      (.dict [(.str "continuity_issues", .list [mkIssue c s1])])
      (.dict [(.str "continuity_issues", .list [mkIssue c s2])]) =
      .ok (.dict [(.str "continuity_issues",
        .list [if s2 = .str "completed" ∨ s1 ≠ .str "completed"
          then mkIssue c s2 else mkIssue c s1])]) := by
  have hCe : c.isEmpty = false := by simpa [Value.truthy] using hC
  by_cases h2 : s2 = Value.str "completed" <;>
  by_cases h1 : s1 = Value.str "completed" <;>
  simp [merge_revelations, issueFoldOld, issueFoldNew, revReplaceKey, mkIssue,
    pyCopy, pyItems, pyContains, pyGetItem, pySetItem, pyGet, pyGetD, pyIter,
    Value.hashable, Value.truthy, Value.isList, hCe, h1, h2, List.foldlM,
    bind_ok_l, lookupV, insertV]

/-- C4 witness: the spec's concrete instance (chapter "3", existing open,
new completed). -/
theorem continuityCompletedWinsPrecedence_witness :
    merge_revelations
      (.dict [(.str "continuity_issues", .list [mkIssue "3" (.str "open")])])
      (.dict [(.str "continuity_issues", .list [mkIssue "3" (.str "completed")])]) =
      .ok (.dict [(.str "continuity_issues",
        .list [if (Value.str "completed") = .str "completed" ∨
            (Value.str "open") ≠ .str "completed"
          then mkIssue "3" (.str "completed") else mkIssue "3" (.str "open")])]) :=
  continuityCompletedWinsPrecedence "3" (by decide) (.str "open") (.str "completed")

theorem relNormalize_isDict (cv : Value) : (relNormalize cv).isDict = true := by
  cases cv with
  | list xs =>
      rcases hall : xs.all Value.isDict with _ | _
      · simp [relNormalize, hall, Value.isDict]
      · simp only [relNormalize, hall, if_true]
        cases relPairsToDict xs 0 [] <;> simp [Value.isDict]
  | none => rfl
  | str s => rfl
  | int n => rfl
  | dict d => rfl

/-- After the relationships block, whenever the delta supplies a non-null
`relationships` value, the updated character has a dict there. -/
theorem relStepIsDict (rc : Value) (cd : PyDict) (cv r : Value)
    (hrel : lookupV cd (.str "relationships") = some cv)
    (hcv : cv ≠ Value.none)
    (h : mergeCharRelationships rc (.dict cd) = .ok r) :
    (vGet r (.str "relationships")).isDict = true := by
  simp [mergeCharRelationships, pyContains, pyGetItem, Value.hashable, hrel,
    hcv, bind_ok_l] at h
  cases rc with
  | dict rd =>
      rcases hlk : lookupV rd (.str "relationships") with _ | rv
      · simp only [pyContains, Value.hashable, hlk, Option.isSome_none,
          bind_ok_l, if_true, if_false, Bool.false_eq_true, ite_false] at h
        rcases hd : cv.isDict with _ | _
        · rcases hl : cv.isList with _ | _
          · simp [hd, hl, pySetItem, Value.hashable] at h
            rw [← h]; simp [vGet, lookupV_insertV_self, Value.isDict]
          · simp [hd, hl, pySetItem, Value.hashable] at h
            rw [← h]
            simp only [vGet, lookupV_insertV_self, Option.getD_some]
            exact relNormalize_isDict cv
        · simp [hd, pySetItem, Value.hashable] at h
          rw [← h]
          simp only [vGet, lookupV_insertV_self, Option.getD_some]
          exact hd
      · by_cases hrv : rv = Value.none
        · subst hrv
          simp only [pyContains, Value.hashable, hlk, Option.isSome_some,
            bind_ok_l, if_true, pyGetItem, bne_self_eq_false,
            Bool.false_eq_true, ite_false, ite_true] at h
          rcases hd : cv.isDict with _ | _
          · rcases hl : cv.isList with _ | _
            · simp [hd, hl, pySetItem, Value.hashable] at h
              rw [← h]; simp [vGet, lookupV_insertV_self, Value.isDict]
            · simp [hd, hl, pySetItem, Value.hashable] at h
              rw [← h]
              simp only [vGet, lookupV_insertV_self, Option.getD_some]
              exact relNormalize_isDict cv
          · simp [hd, pySetItem, Value.hashable] at h
            rw [← h]
            simp only [vGet, lookupV_insertV_self, Option.getD_some]
            exact hd
        · have hbne : (rv != Value.none) = true := by
            simp [bne_iff_ne, hrv]
          simp only [pyContains, Value.hashable, hlk, Option.isSome_some,
            bind_ok_l, if_true, pyGetItem, hbne, ite_true] at h
          rcases hrd : rv.isDict with _ | _
          · rcases hd : cv.isDict with _ | _
            · simp [hrd, hd, hrv, pySetItem, Value.hashable] at h
              rw [← h]
              simp only [vGet, lookupV_insertV_self, Option.getD_some]
              exact relNormalize_isDict cv
            · simp [hrd, hd, hrv, pySetItem, Value.hashable] at h
              rw [← h]
              simp only [vGet, lookupV_insertV_self, Option.getD_some]
              exact hd
          · rcases hd : cv.isDict with _ | _
            · simp [hrd, hd, hrv, pure, Except.pure] at h
              rw [← h]
              simp only [vGet, hlk, Option.getD_some]
              exact hrd
            · simp [hrd, hd, hrv, pySetItem, Value.hashable] at h
              rw [← h]
              simp only [vGet, lookupV_insertV_self, Option.getD_some]
              rfl
  | none => simp [pyContains, bind_err_l] at h
  | int n => simp [pyContains, bind_err_l] at h
  | str s =>
      rcases hb : charsInfix "relationships".toList s.toList with _ | _ <;>
        simp [pyContains, hb, bind_ok_l, bind_err_l, pyGetItem, pySetItem] at h
  | list xs =>
      rcases hb : xs.contains (Value.str "relationships") with _ | _ <;>
        simp [pyContains, hb, bind_ok_l, bind_err_l, pyGetItem, pySetItem] at h

/-- A replace-if-truthy field update leaves every other key unchanged. -/
theorem replaceFieldPreservesOther (field : String) (rc cd r k : Value)
    (hk : k ≠ .str field)
    (h : replaceFieldIfTruthy field rc cd = .ok r) :
    vGet r k = vGet rc k := by
  unfold replaceFieldIfTruthy at h
  rcases hp : pyContains cd (.str field) with e | b
  · simp [hp, bind_err_l] at h
  · simp only [hp, bind_ok_l] at h
    cases b with
    | false => simp [pure, Except.pure] at h; rw [← h]
    | true =>
        simp only [if_true] at h
        rcases hg : pyGetItem cd (.str field) with e | cv
        · simp [hg, bind_err_l] at h
        · simp only [hg, bind_ok_l] at h
          rcases ht : cv.truthy with _ | _
          · simp [ht, pure, Except.pure] at h; rw [← h]
          · simp only [ht, if_true] at h
            cases rc with
            | dict rd =>
                simp [pySetItem, Value.hashable] at h
                rw [← h]
                simp [vGet, lookupV_insertV_ne rd (.str field) k cv hk]
            | none => simp [pySetItem] at h
            | str s => simp [pySetItem] at h
            | int n => simp [pySetItem] at h
            | list xs => simp [pySetItem] at h

/-- Whole-character update: a delta supplying non-null relationships yields
a dict-valued relationships field. -/
theorem mergeCharDataRelIsDict (ec : Value) (cd : PyDict) (cv r : Value)
    (hrel : lookupV cd (.str "relationships") = some cv)
    (hcv : cv ≠ Value.none)
    (h : mergeCharData ec (.dict cd) = .ok r) :
    (vGet r (.str "relationships")).isDict = true := by
  unfold mergeCharData at h
  obtain ⟨a, hcopy, h⟩ := bindOk h
  obtain ⟨b1, hf1, h⟩ := bindOk h
  obtain ⟨b2, hf2, h⟩ := bindOk h
  obtain ⟨b3, hf3, h⟩ := bindOk h
  obtain ⟨b4, hf4, h⟩ := bindOk h
  obtain ⟨c, hrelstep, h⟩ := bindOk h
  obtain ⟨d1, hn, h⟩ := bindOk h
  obtain ⟨d2, hro, h⟩ := bindOk h
  have hc : (vGet c (.str "relationships")).isDict = true :=
    relStepIsDict b4 cd cv c hrel hcv hrelstep
  rw [replaceFieldPreservesOther "backstory" d2 (.dict cd) r _ (by decide) h,
    replaceFieldPreservesOther "role" d1 (.dict cd) d2 _ (by decide) hro,
    replaceFieldPreservesOther "name" c (.dict cd) d1 _ (by decide) hn]
  exact hc

/-- C7 counterexample: a delta introducing a brand-new character is inserted
verbatim (models.py line 113), so its list-of-pairs `relationships` is NOT
normalized to a map. -/
theorem newCharacterRelationshipsListNotNormalized :
    merge_characters (.dict [])
      (.dict [(.str "carol", .dict [(.str "relationships",
        .list [.dict [(.str "character", .str "bob"),
          (.str "relationship", .str "ally")]])])]) =
      .ok (.dict [(.str "carol", .dict [(.str "relationships",
        .list [.dict [(.str "character", .str "bob"),
          (.str "relationship", .str "ally")]])])])
  ∧ (Value.list [.dict [(.str "character", .str "bob"),
      (.str "relationship", .str "ally")]]).isDict = false :=
  ⟨by decide, by decide⟩

/-- C7 amended: when a delta is merged into an EXISTING character, a
supplied non-null `relationships` value always results in a map (a list of
`{character, relationship}` pairs is normalized, anything unusable degrades
to the existing map or `{}`); in particular the spec's example delta merged
into an existing character with no relationships yields
`{"bob": "ally"}`. -/
theorem existingCharRelationshipsNormalized :
    (∀ (e cd : PyDict) (cid cv r : Value),
      (lookupV e cid).isSome = true →
      lookupV cd (.str "relationships") = some cv →
      cv ≠ Value.none →
      merge_characters (.dict e) (.dict [(cid, .dict cd)]) = .ok r →
      (vGet (vGet r cid) (.str "relationships")).isDict = true)
  ∧ merge_characters
      (.dict [(.str "alice", .dict [(.str "name", .str "Alice")])])
      (.dict [(.str "alice", .dict [(.str "relationships",
        .list [.dict [(.str "character", .str "bob"),
          (.str "relationship", .str "ally")]])])]) =
      .ok (.dict [(.str "alice", .dict [(.str "name", .str "Alice"),
        (.str "relationships", .dict [(.str "bob", .str "ally")])])]) := by
  constructor
  · intro e cd cid cv r hex hrel hcv h
    obtain ⟨ev, hev⟩ := Option.isSome_iff_exists.mp hex
    rcases hh : cid.hashable with _ | _
    · simp [merge_characters, pyCopy, pyItems, pyContains, hh, List.foldlM,
        bind_ok_l, bind_err_l] at h
    · simp only [merge_characters, pyCopy, pyItems, pyContains, pyGetItem,
        hh, hev, List.foldlM, bind_ok_l, Option.isSome_some, if_true,
        ite_true] at h
      obtain ⟨rc, hmc, hset⟩ := bindOk h
      simp [pure, Except.pure] at hset
      obtain ⟨mcv, hmc2, hset2⟩ := bindOk hmc
      simp [pySetItem, hh] at hset2
      rw [← hset, ← hset2]
      simp only [vGet, lookupV_insertV_self, Option.getD_some]
      exact mergeCharDataRelIsDict ev cd cv mcv hrel hcv hmc2
  · decide

/-- C7 witness: the general statement applied to the spec's example. -/
theorem existingCharRelationshipsNormalized_witness :
    (vGet (vGet (Value.dict [(.str "alice", .dict [(.str "name", .str "Alice"),
        (.str "relationships", .dict [(.str "bob", .str "ally")])])])
      (.str "alice")) (.str "relationships")).isDict = true :=
  existingCharRelationshipsNormalized.1
    [(.str "alice", .dict [(.str "name", .str "Alice")])]
    [(.str "relationships", .list [.dict [(.str "character", .str "bob"),
      (.str "relationship", .str "ally")]])]
    (.str "alice")
    (.list [.dict [(.str "character", .str "bob"),
      (.str "relationship", .str "ally")]])
    (.dict [(.str "alice", .dict [(.str "name", .str "Alice"),
      (.str "relationships", .dict [(.str "bob", .str "ally")])])])
    (by decide) (by decide) (by decide) (by decide)

/-! ### C3: the continuity single-record invariant -/

/-- The continuity issues recorded in a revelations value. -/
def contIssues (v : Value) : List Value :=
  asList (vGet v (.str "continuity_issues"))

/-- The chapter an issue is anchored to. -/
def afterChapter (i : Value) : Value := vGet i (.str "after_chapter")

/-- Number of continuity issues for chapter `c`. -/
def chapterCount (v : Value) (c : Value) : Nat :=
  (contIssues v).countP (fun i => afterChapter i == c)

/-- The single-record invariant: at most one issue per chapter key. -/
def issuesInv (v : Value) : Prop := ∀ c : Value, chapterCount v c ≤ 1

/-- A sequence of revelation merges. -/
def mergeRevSeq (init : Value) (deltas : List Value) : PyM Value :=
  deltas.foldlM merge_revelations init

theorem mem_insertV (d : PyDict) (k v : Value) (kv : Value × Value)
    (h : kv ∈ insertV d k v) : kv = (k, v) ∨ kv ∈ d := by
  induction d with
  | nil => simpa [insertV] using h
  | cons kv0 rest ih =>
      obtain ⟨k0, v0⟩ := kv0
      by_cases h0 : k0 = k
      · subst h0
        simp [insertV] at h
        rcases h with h | h
        · left; rw [h]
        · right; simp [h]
      · simp [insertV, h0] at h
        rcases h with h | h
        · right; simp [h]
        · rcases ih h with h1 | h1
          · left; exact h1
          · right; simp [h1]

theorem insertV_keys_present (d : PyDict) (k v w : Value)
    (h : lookupV d k = some w) :
    (insertV d k v).map Prod.fst = d.map Prod.fst := by
  induction d with
  | nil => simp [lookupV] at h
  | cons kv0 rest ih =>
      obtain ⟨k0, v0⟩ := kv0
      by_cases h0 : k0 = k
      · subst h0; simp [insertV]
      · simp only [lookupV, h0, if_false, ite_false] at h
        simp [insertV, h0, ih h]

theorem insertV_keys_new (d : PyDict) (k v : Value)
    (h : lookupV d k = Option.none) :
    (insertV d k v).map Prod.fst = d.map Prod.fst ++ [k] := by
  induction d with
  | nil => simp [insertV]
  | cons kv0 rest ih =>
      obtain ⟨k0, v0⟩ := kv0
      by_cases h0 : k0 = k
      · subst h0; simp [lookupV] at h
      · simp only [lookupV, h0, if_false, ite_false] at h
        simp [insertV, h0, ih h]

theorem lookupV_none_keys (d : PyDict) (k : Value)
    (h : lookupV d k = Option.none) : ∀ kv ∈ d, kv.1 ≠ k := by
  induction d with
  | nil => simp
  | cons kv0 rest ih =>
      obtain ⟨k0, v0⟩ := kv0
      by_cases h0 : k0 = k
      · subst h0; simp [lookupV] at h
      · simp only [lookupV, h0, if_false, ite_false] at h
        intro kv hm
        rcases List.mem_cons.mp hm with h1 | h1
        · rw [h1]; exact h0
        · exact ih h kv h1

/-- Invariant of the `best_issues_by_chapter` working map: chapter keys are
pairwise distinct and each stored issue is anchored to its key. -/
def AInv (best : PyDict) : Prop :=
  (best.map Prod.fst).Nodup ∧ ∀ kv ∈ best, afterChapter kv.2 = kv.1

theorem AInv_nil : AInv [] := ⟨List.nodup_nil, by simp⟩

theorem AInv_insert (best : PyDict) (c i : Value) (hA : AInv best)
    (hc : afterChapter i = c) : AInv (insertV best c i) := by
  constructor
  · rcases hlk : lookupV best c with _ | w
    · rw [insertV_keys_new best c i hlk, List.nodup_append]
      refine ⟨hA.1, List.nodup_singleton c, ?_⟩
      intro a ha
      obtain ⟨kv, hkv, hfst⟩ := List.mem_map.mp ha
      simp only [List.mem_singleton]
      intro hb
      subst hb
      exact lookupV_none_keys best a hlk kv hkv hfst
    · rw [insertV_keys_present best c i w hlk]
      exact hA.1
  · intro kv hm
    rcases mem_insertV best c i kv hm with h1 | h1
    · rw [h1]; exact hc
    · exact hA.2 kv h1

theorem pyGet_ok_vGet (i k w : Value) (hk : k.hashable = true)
    (h : pyGet i k = .ok w) : vGet i k = w := by
  cases i <;> simp_all [pyGet, pyGetD, hk, vGet]

theorem issueFoldOld_AInv (best best' : PyDict) (issue : Value)
    (hA : AInv best) (h : issueFoldOld best issue = .ok best') : AInv best' := by
  unfold issueFoldOld at h
  rcases hg : pyGet issue (.str "after_chapter") with e | chv
  · simp [hg, bind_err_l] at h
  · simp only [hg, bind_ok_l] at h
    have hvc : afterChapter issue = chv :=
      pyGet_ok_vGet issue (.str "after_chapter") chv (by decide) hg
    rcases ht : chv.truthy with _ | _
    · simp [ht, pure, Except.pure] at h; rw [← h]; exact hA
    · rcases hh : chv.hashable with _ | _
      · simp [ht, hh] at h
      · simp only [ht, hh, Bool.not_true, Bool.not_false, Bool.false_eq_true,
          if_false, if_true, ite_true, ite_false] at h
        rcases hlk : lookupV best chv with _ | cur
        · simp only [hlk, pure, Except.pure, Except.ok.injEq] at h
          rw [← h]
          exact AInv_insert best chv issue hA hvc
        · simp only [hlk] at h
          rcases hrs : pyGet issue (.str "resolution_status") with e | rs
          · simp [hrs, bind_err_l] at h
          · simp only [hrs, bind_ok_l] at h
            by_cases hcomp : rs = Value.str "completed"
            · simp only [hcomp, if_true, ite_true] at h
              rcases hcs : pyGet cur (.str "resolution_status") with e | cs
              · simp [hcs, bind_err_l] at h
              · simp only [hcs, bind_ok_l] at h
                by_cases hcs2 : cs = Value.str "completed"
                · simp only [hcs2, ne_eq, not_true_eq_false, if_false,
                    ite_false, pure, Except.pure, Except.ok.injEq] at h
                  rw [← h]; exact hA
                · simp only [ne_eq, hcs2, not_false_eq_true, if_true,
                    ite_true, pure, Except.pure, Except.ok.injEq] at h
                  rw [← h]
                  exact AInv_insert best chv issue hA hvc
            · simp only [hcomp, if_false, ite_false, pure, Except.pure,
                Except.ok.injEq] at h
              rw [← h]; exact hA

theorem issueFoldNew_AInv (best best' : PyDict) (issue : Value)
    (hA : AInv best) (h : issueFoldNew best issue = .ok best') : AInv best' := by
  unfold issueFoldNew at h
  rcases hg : pyGet issue (.str "after_chapter") with e | chv
  · simp [hg, bind_err_l] at h
  · simp only [hg, bind_ok_l] at h
    have hvc : afterChapter issue = chv :=
      pyGet_ok_vGet issue (.str "after_chapter") chv (by decide) hg
    rcases ht : chv.truthy with _ | _
    · simp [ht, pure, Except.pure] at h; rw [← h]; exact hA
    · rcases hh : chv.hashable with _ | _
      · simp [ht, hh] at h
      · simp only [ht, hh, Bool.not_true, Bool.not_false, Bool.false_eq_true,
          if_false, if_true, ite_true, ite_false] at h
        rcases hlk : lookupV best chv with _ | cur
        · simp only [hlk, pure, Except.pure, Except.ok.injEq] at h
          rw [← h]
          exact AInv_insert best chv issue hA hvc
        · simp only [hlk] at h
          rcases hrs : pyGet issue (.str "resolution_status") with e | rs
          · simp [hrs, bind_err_l] at h
          · simp only [hrs, bind_ok_l] at h
            by_cases hcomp : rs = Value.str "completed"
            · simp only [hcomp, if_true, ite_true, pure, Except.pure,
                Except.ok.injEq] at h
              rw [← h]
              exact AInv_insert best chv issue hA hvc
            · simp only [hcomp, if_false, ite_false] at h
              rcases hcs : pyGet cur (.str "resolution_status") with e | cs
              · simp [hcs, bind_err_l] at h
              · simp only [hcs, bind_ok_l] at h
                by_cases hcs2 : cs = Value.str "completed"
                · simp only [hcs2, ne_eq, not_true_eq_false, if_false,
                    ite_false, pure, Except.pure, Except.ok.injEq] at h
                  rw [← h]; exact hA
                · simp only [ne_eq, hcs2, not_false_eq_true, if_true,
                    ite_true, pure, Except.pure, Except.ok.injEq] at h
                  rw [← h]
                  exact AInv_insert best chv issue hA hvc

theorem foldlM_AInv (f : PyDict → Value → PyM PyDict)
    (hf : ∀ b b' i, AInv b → f b i = .ok b' → AInv b') :
    ∀ (l : List Value) (b b' : PyDict), AInv b →
      l.foldlM f b = .ok b' → AInv b' := by
  intro l
  induction l with
  | nil =>
      intro b b' hA h
      simp [List.foldlM, pure, Except.pure] at h
      rw [← h]; exact hA
  | cons x xs ih =>
      intro b b' hA h
      simp only [List.foldlM] at h
      obtain ⟨mid, h1, h2⟩ := bindOk h
      exact ih mid b' (hf b mid x hA h1) h2

theorem countP_le_one_of_AInv (best : PyDict) (hA : AInv best) (c : Value) :
    (best.map Prod.snd).countP (fun i => afterChapter i == c) ≤ 1 := by
  induction best with
  | nil => simp
  | cons kv rest ih =>
      obtain ⟨k, i⟩ := kv
      have hnd := List.nodup_cons.mp hA.1
      have hA2 : AInv rest :=
        ⟨hnd.2, fun kv hm => hA.2 kv (List.mem_cons_of_mem _ hm)⟩
      have hk : afterChapter i = k := hA.2 (k, i) (List.mem_cons_self _ _)
      by_cases hc : k = c
      · subst hc
        have hzero : (rest.map Prod.snd).countP
            (fun i => afterChapter i == k) = 0 := by
          rw [List.countP_eq_zero]
          intro a ha
          obtain ⟨kv2, hm2, rfl⟩ := List.mem_map.mp ha
          have he : afterChapter kv2.2 = kv2.1 := hA2.2 kv2 hm2
          have hne : kv2.1 ≠ k := by
            intro hcontra
            exact hnd.1 (List.mem_map.mpr ⟨kv2, hm2, hcontra⟩)
          simp [he, hne]
        simp [List.countP_cons, hk, hzero]
      · have hne2 : (afterChapter i == c) = false := by
          simp [hk, hc]
        simp only [List.map_cons, List.countP_cons, hne2, if_false,
          ite_false, Nat.add_zero]
        exact ih hA2

theorem mergeRevStdKey_preserves_cont (res mid : Value) (kv : Value × Value)
    (hk : kv.1 ≠ .str "continuity_issues")
    (h : mergeRevStdKey res kv = .ok mid) :
    vGet mid (.str "continuity_issues") = vGet res (.str "continuity_issues") := by
  obtain ⟨key, values⟩ := kv
  simp only at hk
  unfold mergeRevStdKey at h
  cases res with
  | dict rd =>
      rcases hh : key.hashable with _ | _
      · simp [pyContains, hh, bind_err_l] at h
      · simp only [pyContains, hh, if_true, ite_true, bind_ok_l] at h
        rcases hlk : lookupV rd key with _ | rv
        · simp only [hlk, Option.isSome_none, Bool.false_eq_true, if_false,
            ite_false, pySetItem, hh, if_true, ite_true,
            Except.ok.injEq] at h
          rw [← h]
          simp [vGet, lookupV_insertV_ne rd key (.str "continuity_issues") values (Ne.symm hk)]
        · simp only [hlk, Option.isSome_some, if_true, ite_true] at h
          rcases hvl : values.isList with _ | _
          · simp only [hvl, Bool.false_eq_true, if_false, ite_false,
              pySetItem, hh, if_true, ite_true, Except.ok.injEq] at h
            rw [← h]
            simp [vGet, lookupV_insertV_ne rd key (.str "continuity_issues") values (Ne.symm hk)]
          · simp only [hvl, if_true, ite_true, pyGetItem, hh, hlk,
              bind_ok_l] at h
            rcases hrl : rv.isList with _ | _
            · simp only [hrl, Bool.false_eq_true, if_false, ite_false,
                pySetItem, hh, if_true, ite_true, Except.ok.injEq] at h
              rw [← h]
              simp [vGet, lookupV_insertV_ne rd key (.str "continuity_issues") values (Ne.symm hk)]
            · cases rv <;> simp [Value.isList] at hrl
              cases values <;> simp [Value.isList] at hvl
              simp only [Value.isList, if_true, ite_true, pyAdd, bind_ok_l,
                pySetItem, hh, Except.ok.injEq] at h
              rw [← h]
              simp [vGet, lookupV_insertV_ne rd key (.str "continuity_issues") _ (Ne.symm hk)]
  | none => simp [pyContains, bind_err_l] at h
  | int n => simp [pyContains, bind_err_l] at h
  | str s =>
      cases key <;>
        simp [pyContains, bind_err_l, bind_ok_l, pyGetItem, pySetItem] at h
  | list xs =>
      simp only [pyContains, bind_ok_l] at h
      by_cases hb : key ∈ xs
      · rcases hvl : values.isList with _ | _
        · simp [hb, hvl, pySetItem] at h
        · simp [hb, hvl, pyGetItem, bind_err_l] at h
      · simp [hb, pySetItem] at h

theorem foldStd_preserves_cont :
    ∀ (items : List (Value × Value)) (res R : Value),
    (∀ kv ∈ items, kv.1 ≠ Value.str "continuity_issues") →
    items.foldlM mergeRevStdKey res = .ok R →
    vGet R (.str "continuity_issues") = vGet res (.str "continuity_issues") := by
  intro items
  induction items with
  | nil =>
      intro res R _ h
      simp [List.foldlM, pure, Except.pure] at h
      rw [← h]
  | cons kv rest ih =>
      intro res R hfree h
      simp only [List.foldlM] at h
      obtain ⟨mid, h1, h2⟩ := bindOk h
      rw [ih mid R (fun kv2 hm => hfree kv2 (List.mem_cons_of_mem _ hm)) h2]
      exact mergeRevStdKey_preserves_cont res mid kv
        (hfree kv (List.mem_cons_self _ _)) h1

theorem revReplaceKey_preserves_cont (res mid : Value) (kv : Value × Value)
    (h : revReplaceKey res kv = .ok mid) :
    vGet mid (.str "continuity_issues") = vGet res (.str "continuity_issues") := by
  unfold revReplaceKey at h
  by_cases hk : kv.1 = Value.str "continuity_issues"
  · simp only [hk, ne_eq, not_true_eq_false, if_false, ite_false, pure,
      Except.pure, Except.ok.injEq] at h
    rw [← h]
  · simp only [ne_eq, hk, not_false_eq_true, if_true, ite_true] at h
    cases res with
    | dict rd =>
        rcases hh : kv.1.hashable with _ | _
        · simp [pySetItem, hh] at h
        · simp only [pySetItem, hh, if_true, ite_true, Except.ok.injEq] at h
          rw [← h]
          simp [vGet, lookupV_insertV_ne rd kv.1 (.str "continuity_issues")
            kv.2 (Ne.symm hk)]
    | none => simp [pySetItem] at h
    | str s => simp [pySetItem] at h
    | int m => simp [pySetItem] at h
    | list xs => simp [pySetItem] at h

theorem foldReplace_preserves_cont :
    ∀ (items : List (Value × Value)) (res R : Value),
    items.foldlM revReplaceKey res = .ok R →
    vGet R (.str "continuity_issues") = vGet res (.str "continuity_issues") := by
  intro items
  induction items with
  | nil =>
      intro res R h
      simp [List.foldlM, pure, Except.pure] at h
      rw [← h]
  | cons kv rest ih =>
      intro res R h
      simp only [List.foldlM] at h
      obtain ⟨mid, h1, h2⟩ := bindOk h
      rw [ih mid R h2]
      exact revReplaceKey_preserves_cont res mid kv h1

theorem mergeRevStdKey_list_err (xs : List Value) (kv : Value × Value) :
    mergeRevStdKey (.list xs) kv = .error .typeError := by
  obtain ⟨key, values⟩ := kv
  simp only [mergeRevStdKey, pyContains, bind_ok_l]
  by_cases hb : key ∈ xs
  · rcases hvl : values.isList with _ | _
    · simp [hb, hvl, pySetItem]
    · simp [hb, hvl, pyGetItem, bind_err_l]
  · simp [hb, pySetItem]

/-- The standard-merge fold on a list-typed existing value can only succeed
with an empty update. -/
theorem stdFoldInvList (xs : List Value) (items : List (Value × Value))
    (R : Value) (h : List.foldlM mergeRevStdKey (Value.list xs) items = .ok R) :
    issuesInv R := by
  cases items with
  | nil =>
      simp [List.foldlM, pure, Except.pure] at h
      rw [← h]
      intro c
      simp [chapterCount, contIssues, vGet, asList]
  | cons kv rest =>
      simp only [List.foldlM] at h
      obtain ⟨mid, h1, _⟩ := bindOk h
      rw [mergeRevStdKey_list_err xs kv] at h1
      exact absurd h1 (by simp)

/-- The standard-merge fold on a dict leaves `continuity_issues` untouched
when no update key names it. -/
theorem stdFoldInvDict (e : PyDict) (items : List (Value × Value)) (R : Value)
    (hfree : ∀ kv ∈ items, kv.1 ≠ Value.str "continuity_issues")
    (hinv : issuesInv (.dict e))
    (h : List.foldlM mergeRevStdKey (Value.dict e) items = .ok R) :
    issuesInv R := by
  intro c
  unfold chapterCount contIssues
  rw [foldStd_preserves_cont items (.dict e) R hfree h]
  exact hinv c

/-- One `merge_revelations` step preserves the single-record invariant. -/
theorem mergeRevPreservesInv (E n R : Value) (hinv : issuesInv E)
    (h : merge_revelations E n = .ok R) : issuesInv R := by
  unfold merge_revelations at h
  cases E with
  | none => simp [pyCopy, bind_err_l] at h
  | str s => simp [pyCopy, bind_err_l] at h
  | int m => simp [pyCopy, bind_err_l] at h
  | list xs =>
      simp only [pyCopy, bind_ok_l] at h
      rcases hnt : n.truthy with _ | _
      · simp only [hnt, Bool.not_false, if_true, pure, Except.pure,
          bind_ok_l, ite_true, eq_self_iff_true] at h
        obtain ⟨items, hI, h⟩ := bindOk h
        exact stdFoldInvList xs items R h
      · simp only [hnt, Bool.not_true, Bool.false_eq_true, if_false,
          ite_false] at h
        obtain ⟨cb, hC, h⟩ := bindOk h
        simp only [pure, Except.pure, bind_ok_l] at h
        cases cb with
        | false =>
            simp only [Bool.not_false, if_true, ite_true,
              eq_self_iff_true] at h
            obtain ⟨items, hI, h⟩ := bindOk h
            exact stdFoldInvList xs items R h
        | true =>
            simp only [Bool.not_true] at h
            rw [if_neg Bool.false_ne_true] at h
            simp [pyGetD, bind_err_l] at h
  | dict e =>
      simp only [pyCopy, bind_ok_l] at h
      rcases hnt : n.truthy with _ | _
      · simp only [hnt, Bool.not_false, if_true, pure, Except.pure,
          bind_ok_l, ite_true, eq_self_iff_true] at h
        obtain ⟨items, hI, h⟩ := bindOk h
        cases n with
        | dict nit =>
            have hitems : nit = items := by simpa [pyItems] using hI
            subst hitems
            have hemp : nit = [] := by
              cases nit with
              | nil => rfl
              | cons a l => simp [Value.truthy] at hnt
            subst hemp
            exact stdFoldInvDict e [] R (by simp) hinv h
        | none => simp [pyItems] at hI
        | str s2 => simp [pyItems] at hI
        | int m2 => simp [pyItems] at hI
        | list ys => simp [pyItems] at hI
      · simp only [hnt, Bool.not_true, Bool.false_eq_true, if_false,
          ite_false] at h
        obtain ⟨cb, hC, h⟩ := bindOk h
        simp only [pure, Except.pure, bind_ok_l] at h
        cases cb with
        | false =>
            simp only [Bool.not_false, if_true, ite_true,
              eq_self_iff_true] at h
            obtain ⟨items, hI, h⟩ := bindOk h
            cases n with
            | dict nit =>
                have hitems : nit = items := by simpa [pyItems] using hI
                subst hitems
                have hfree : ∀ kv ∈ nit,
                    kv.1 ≠ Value.str "continuity_issues" := by
                  simp only [pyContains, Value.hashable, if_true, ite_true,
                    Except.ok.injEq] at hC
                  have hlk : lookupV nit (.str "continuity_issues") =
                      Option.none := by
                    rcases hx : lookupV nit (.str "continuity_issues")
                      with _ | w
                    · rfl
                    · rw [hx] at hC; simp at hC
                  exact lookupV_none_keys nit _ hlk
                exact stdFoldInvDict e nit R hfree hinv h
            | none => simp [pyItems] at hI
            | str s2 => simp [pyItems] at hI
            | int m2 => simp [pyItems] at hI
            | list ys => simp [pyItems] at hI
        | true =>
            simp only [Bool.not_true] at h
            rw [if_neg Bool.false_ne_true] at h
            obtain ⟨old_issues, hOld, h⟩ := bindOk h
            obtain ⟨new_issues, hNew, h⟩ := bindOk h
            obtain ⟨oldList, hOL, h⟩ := bindOk h
            obtain ⟨best1, hB1, h⟩ := bindOk h
            obtain ⟨newList, hNL, h⟩ := bindOk h
            obtain ⟨best2, hB2, h⟩ := bindOk h
            obtain ⟨result, hRes, h⟩ := bindOk h
            obtain ⟨items, hI, h⟩ := bindOk h
            have hA1 : AInv best1 := foldlM_AInv issueFoldOld
              (fun b b' i hA hh => issueFoldOld_AInv b b' i hA hh)
              oldList [] best1 AInv_nil hB1
            have hA2 : AInv best2 := foldlM_AInv issueFoldNew
              (fun b b' i hA hh => issueFoldNew_AInv b b' i hA hh)
              newList best1 best2 hA1 hB2
            simp only [pySetItem, Value.hashable, if_true, ite_true,
              Except.ok.injEq] at hRes
            have hcont2 := foldReplace_preserves_cont items result R h
            intro c
            unfold chapterCount contIssues
            rw [hcont2, ← hRes]
            simp only [vGet, lookupV_insertV_self, Option.getD_some, asList]
            exact countP_le_one_of_AInv best2 hA2 c

/-- C3: for every chapter key, after any sequence of revelation merges
starting from a value satisfying the single-record invariant (in
particular one with empty `continuity_issues`), the merged
`continuity_issues` contain at most one entry per `after_chapter` key. -/
theorem continuitySingleRecordInvariant (D : Value) (deltas : List Value)
    (R : Value) (hinv : issuesInv D) (h : mergeRevSeq D deltas = .ok R) :
    issuesInv R := by
  induction deltas generalizing D with
  | nil =>
      simp [mergeRevSeq, List.foldlM, pure, Except.pure] at h
      rw [← h]
      exact hinv
  | cons n rest ih =>
      simp only [mergeRevSeq, List.foldlM] at h
      obtain ⟨mid, h1, h2⟩ := bindOk h
      exact ih mid (mergeRevPreservesInv D n mid hinv h1) h2

/-- C3 witness: one merge of a two-issue delta (both for chapter "1") into
an empty revelations dict leaves a single chapter-"1" record. -/
theorem continuitySingleRecordInvariant_witness :
    issuesInv (.dict [(.str "continuity_issues",
      .list [mkIssue "1" (.str "completed")])]) :=
  continuitySingleRecordInvariant (.dict [])
    [.dict [(.str "continuity_issues",
      .list [mkIssue "1" (.str "open"), mkIssue "1" (.str "completed")])]]
    (.dict [(.str "continuity_issues", .list [mkIssue "1" (.str "completed")])])
    (fun c => by simp [chapterCount, contIssues, vGet, lookupV, asList])
    (by decide)

/-! ### C9: dedup-append and idempotence of the plot-thread history merge -/

theorem entryKey_ok (e : Value) (hd : e.isDict = true) :
    entryKey e = .ok (entryKeyT e) := by
  cases e <;> simp [Value.isDict] at hd
  rfl

theorem entryKey_inv (e : Value) (s : String) (h : entryKey e = .ok s) :
    e.isDict = true ∧ s = entryKeyT e := by
  cases e with
  | dict d =>
      rw [entryKey_ok (.dict d) rfl] at h
      exact ⟨rfl, (Except.ok.inj h).symm⟩
  | none => simp [entryKey, pyGet, pyGetD, bind_err_l] at h
  | str s2 => simp [entryKey, pyGet, pyGetD, bind_err_l] at h
  | int n => simp [entryKey, pyGet, pyGetD, bind_err_l] at h
  | list xs => simp [entryKey, pyGet, pyGetD, bind_err_l] at h

theorem entryKeysAcc_fold_inv :
    ∀ (es : List Value) (acc keys : List String),
    es.foldlM entryKeysAcc acc = .ok keys →
    keys = acc ++ es.map entryKeyT ∧ ∀ e ∈ es, e.isDict = true := by
  intro es
  induction es with
  | nil =>
      intro acc keys h
      simp [List.foldlM, pure, Except.pure] at h
      simp [← h]
  | cons e rest ih =>
      intro acc keys h
      simp only [List.foldlM] at h
      obtain ⟨mid, h1, h2⟩ := bindOk h
      simp only [entryKeysAcc] at h1
      obtain ⟨k, hk, hmid⟩ := bindOk h1
      obtain ⟨hde, hke⟩ := entryKey_inv e k hk
      simp [pure, Except.pure] at hmid
      subst hke
      rw [← hmid] at h2
      obtain ⟨hkeys, hds⟩ := ih (acc ++ [entryKeyT e]) keys h2
      constructor
      · rw [hkeys]; simp
      · intro x hx
        rcases List.mem_cons.mp hx with rfl | hx2
        · exact hde
        · exact hds x hx2

theorem entryKeysAcc_fold_ok (es : List Value) (acc : List String)
    (hd : ∀ e ∈ es, e.isDict = true) :
    es.foldlM entryKeysAcc acc = .ok (acc ++ es.map entryKeyT) := by
  induction es generalizing acc with
  | nil => simp [List.foldlM, pure, Except.pure]
  | cons e rest ih =>
      simp only [List.foldlM, entryKeysAcc,
        entryKey_ok e (hd e (List.mem_cons_self _ _)), bind_ok_l, pure,
        Except.pure]
      rw [ih (acc ++ [entryKeyT e]) (fun x hx => hd x (List.mem_cons_of_mem _ hx))]
      simp

theorem histAppend_fold_inv :
    ∀ (hs : List Value) (keys0 : List String) (acc : List Value) (out : Value),
    hs.foldlM (histAppendStep keys0) (.list acc) = .ok out →
    out = .list (acc ++ hs.filter (fun e => !keys0.contains (entryKeyT e))) ∧
      ∀ e ∈ hs, e.isDict = true := by
  intro hs
  induction hs with
  | nil =>
      intro keys0 acc out h
      simp [List.foldlM, pure, Except.pure] at h
      simp [← h]
  | cons e rest ih =>
      intro keys0 acc out h
      simp only [List.foldlM] at h
      obtain ⟨mid, h1, h2⟩ := bindOk h
      simp only [histAppendStep] at h1
      obtain ⟨k, hk, hmid⟩ := bindOk h1
      obtain ⟨hde, hke⟩ := entryKey_inv e k hk
      subst hke
      by_cases hmem : keys0.contains (entryKeyT e) = true
      · simp only [hmem, if_true, ite_true, pure, Except.pure,
          Except.ok.injEq] at hmid
        rw [← hmid] at h2
        obtain ⟨hout, hds⟩ := ih keys0 acc out h2
        have hm : entryKeyT e ∈ keys0 := by simpa using hmem
        constructor
        · rw [hout]; simp [List.filter_cons, hm]
        · intro x hx
          rcases List.mem_cons.mp hx with rfl | hx2
          · exact hde
          · exact hds x hx2
      · simp only [hmem, Bool.false_eq_true, if_false, ite_false, pyAppend,
          Except.ok.injEq] at hmid
        rw [← hmid] at h2
        obtain ⟨hout, hds⟩ := ih keys0 (acc ++ [e]) out h2
        have hm : ¬ entryKeyT e ∈ keys0 := by
          intro hmm
          exact hmem (by simpa using hmm)
        constructor
        · rw [hout]
          simp [List.filter_cons, hm]
        · intro x hx
          rcases List.mem_cons.mp hx with rfl | hx2
          · exact hde
          · exact hds x hx2

theorem histAppend_fold_noop (hs : List Value) (keys0 : List String)
    (acc : List Value)
    (hd : ∀ e ∈ hs, e.isDict = true ∧ keys0.contains (entryKeyT e) = true) :
    hs.foldlM (histAppendStep keys0) (.list acc) = .ok (.list acc) := by
  induction hs with
  | nil => simp [List.foldlM, pure, Except.pure]
  | cons e rest ih =>
      have he := hd e (List.mem_cons_self _ _)
      simp only [List.foldlM, histAppendStep, entryKey_ok e he.1, bind_ok_l,
        he.2, if_true, ite_true, pure, Except.pure]
      exact ih (fun x hx => hd x (List.mem_cons_of_mem _ hx))

theorem getD_truthy_some (o : Option Value)
    (h : (o.getD Value.none).truthy = true) :
    ∃ v, o = some v ∧ v.truthy = true := by
  cases o with
  | none => simp [Value.truthy] at h
  | some v => exact ⟨v, rfl, by simpa using h⟩


theorem histAppend_fold_noop2 (hs : List Value) (keys0 : List String)
    (v : Value)
    (hd : ∀ e ∈ hs, e.isDict = true ∧ keys0.contains (entryKeyT e) = true) :
    hs.foldlM (histAppendStep keys0) v = .ok v := by
  induction hs with
  | nil => simp [List.foldlM, pure, Except.pure]
  | cons e rest ih =>
      have he := hd e (List.mem_cons_self _ _)
      simp only [List.foldlM, histAppendStep, entryKey_ok e he.1, bind_ok_l,
        he.2, if_true, ite_true, pure, Except.pure]
      exact ih (fun x hx => hd x (List.mem_cons_of_mem _ hx))

theorem statusStep_noop (md tdd : PyDict)
    (hst : (lookupV md (.str "status")).getD Value.none =
      (lookupV tdd (.str "status")).getD Value.none) :
    statusStep (.dict md) (.dict tdd) = .ok (.dict md) := by
  unfold statusStep
  simp [pyGet, pyGetD, Value.hashable, bind_ok_l, hst, pure, Except.pure]

theorem lastStep_noop (md tdd : PyDict)
    (hlc : (vGet (.dict tdd) (.str "last_chapter")).truthy = true →
           (vGet (.dict tdd) (.str "last_scene")).truthy = true →
           lookupV md (.str "last_chapter") = lookupV tdd (.str "last_chapter") ∧
           lookupV md (.str "last_scene") = lookupV tdd (.str "last_scene")) :
    lastStep (.dict md) (.dict tdd) = .ok (.dict md) := by
  unfold lastStep
  simp only [pyGet, pyGetD, Value.hashable, if_true, ite_true, bind_ok_l]
  rcases htlc : ((lookupV tdd (.str "last_chapter")).getD Value.none).truthy
    with _ | _
  · simp [htlc, pure, Except.pure, bind_ok_l]
  · simp only [htlc, if_true, ite_true, bind_ok_l]
    rcases htls : ((lookupV tdd (.str "last_scene")).getD Value.none).truthy
      with _ | _
    · simp [htls, pure, Except.pure, bind_ok_l]
    · obtain ⟨hlc1, hls1⟩ := hlc (by simpa [vGet] using htlc)
        (by simpa [vGet] using htls)
      obtain ⟨v1, hv1, _⟩ := getD_truthy_some _ htlc
      obtain ⟨v2, hv2, _⟩ := getD_truthy_some _ htls
      rw [hv1] at hlc1
      rw [hv2] at hls1
      simp only [htls, if_true, ite_true, pure, Except.pure, bind_ok_l,
        pyGetItem, Value.hashable, hv1, hv2, Option.getD_some,
        pySetItem]
      rw [insertV_self md (.str "last_chapter") v1 hlc1]
      rw [insertV_self md (.str "last_scene") v2 hls1]

theorem histStep_noop (md tdd : PyDict)
    (hdh : ∀ tdh, lookupV tdd (.str "development_history") = some tdh →
           tdh.truthy = true →
           ∃ nels mhv mels, pyIter tdh = .ok nels ∧
             lookupV md (.str "development_history") = some mhv ∧
             pyIter mhv = .ok mels ∧
             (∀ e ∈ mels, e.isDict = true) ∧
             (∀ e ∈ nels, e.isDict = true ∧
               (mels.map entryKeyT).contains (entryKeyT e) = true)) :
    histStep (.dict md) (.dict tdd) = .ok (.dict md) := by
  unfold histStep
  rcases hpc : lookupV tdd (.str "development_history") with _ | tdh
  · simp [pyContains, Value.hashable, hpc, pure, Except.pure, bind_ok_l]
  · simp only [pyContains, Value.hashable, if_true, ite_true, hpc,
      Option.isSome_some, bind_ok_l, pyGetItem, pure, Except.pure]
    rcases httr : tdh.truthy with _ | _
    · simp [httr, pure, Except.pure]
    · simp only [httr, if_true, ite_true, bind_ok_l, pure, Except.pure]
      obtain ⟨nels, mhv, mels, hnels, hmd, hmels, hmds, hns⟩ :=
        hdh tdh hpc httr
      simp only [pyGetD, Value.hashable, if_true, ite_true, hmd,
        Option.getD_some, bind_ok_l, hmels,
        entryKeysAcc_fold_ok mels [] hmds, List.nil_append, hnels]
      rw [histAppend_fold_noop2 nels (mels.map entryKeyT) mhv hns]
      simp only [bind_ok_l, pySetItem, Value.hashable, if_true, ite_true]
      rw [insertV_self md (.str "development_history") mhv hmd]

/-- Composition: the per-thread update is a no-op on a thread that already
carries the delta's contribution. -/
theorem mergePlotThreadData_noop (md tdd : PyDict)
    (hst : (lookupV md (.str "status")).getD Value.none =
      (lookupV tdd (.str "status")).getD Value.none)
    (hlc : (vGet (.dict tdd) (.str "last_chapter")).truthy = true →
           (vGet (.dict tdd) (.str "last_scene")).truthy = true →
           lookupV md (.str "last_chapter") = lookupV tdd (.str "last_chapter") ∧
           lookupV md (.str "last_scene") = lookupV tdd (.str "last_scene"))
    (hdh : ∀ tdh, lookupV tdd (.str "development_history") = some tdh →
           tdh.truthy = true →
           ∃ nels mhv mels, pyIter tdh = .ok nels ∧
             lookupV md (.str "development_history") = some mhv ∧
             pyIter mhv = .ok mels ∧
             (∀ e ∈ mels, e.isDict = true) ∧
             (∀ e ∈ nels, e.isDict = true ∧
               (mels.map entryKeyT).contains (entryKeyT e) = true)) :
    mergePlotThreadData (.dict md) (.dict tdd) = .ok (.dict md) := by
  unfold mergePlotThreadData
  rw [statusStep_noop md tdd hst]
  simp only [bind_ok_l]
  rw [lastStep_noop md tdd hlc]
  simp only [bind_ok_l]
  exact histStep_noop md tdd hdh

theorem statusStep_post (et td r : Value) (h : statusStep et td = .ok r) :
    ∃ (tdd ed rd : PyDict), td = .dict tdd ∧ et = .dict ed ∧ r = .dict rd ∧
      (lookupV rd (.str "status")).getD Value.none =
        (lookupV tdd (.str "status")).getD Value.none ∧
      (∀ k, k ≠ Value.str "status" → lookupV rd k = lookupV ed k) := by
  unfold statusStep at h
  cases td with
  | dict tdd =>
      cases et with
      | dict ed =>
          simp only [pyGet, pyGetD, Value.hashable, if_true, ite_true,
            bind_ok_l] at h
          by_cases heq : (lookupV tdd (.str "status")).getD Value.none =
              (lookupV ed (.str "status")).getD Value.none
          · simp only [heq, ne_eq, not_true_eq_false, if_false, ite_false,
              pure, Except.pure, Except.ok.injEq] at h
            exact ⟨tdd, ed, ed, rfl, rfl, h.symm, heq.symm, fun k _ => rfl⟩
          · simp only [ne_eq, heq, not_false_eq_true, if_true, ite_true] at h
            rcases hlk : lookupV tdd (.str "status") with _ | v
            · simp [pyGetItem, hlk, Value.hashable, bind_err_l] at h
            · simp only [pyGetItem, Value.hashable, if_true, ite_true, hlk,
                bind_ok_l, pySetItem, Except.ok.injEq] at h
              refine ⟨tdd, ed, insertV ed (.str "status") v, rfl, rfl,
                h.symm, ?_, ?_⟩
              · simp [lookupV_insertV_self, hlk]
              · intro k hk
                exact lookupV_insertV_ne ed (.str "status") k v hk
      | none => simp [pyGet, pyGetD, Value.hashable, bind_err_l, bind_ok_l] at h
      | str s => simp [pyGet, pyGetD, Value.hashable, bind_err_l, bind_ok_l] at h
      | int n => simp [pyGet, pyGetD, Value.hashable, bind_err_l, bind_ok_l] at h
      | list xs => simp [pyGet, pyGetD, Value.hashable, bind_err_l, bind_ok_l] at h
  | none => simp [pyGet, pyGetD, bind_err_l] at h
  | str s => simp [pyGet, pyGetD, bind_err_l] at h
  | int n => simp [pyGet, pyGetD, bind_err_l] at h
  | list xs => simp [pyGet, pyGetD, bind_err_l] at h

theorem lastStep_post (ed tdd : PyDict) (r : Value)
    (h : lastStep (.dict ed) (.dict tdd) = .ok r) :
    ∃ rd : PyDict, r = .dict rd ∧
      ((vGet (.dict tdd) (.str "last_chapter")).truthy = true →
       (vGet (.dict tdd) (.str "last_scene")).truthy = true →
       lookupV rd (.str "last_chapter") = lookupV tdd (.str "last_chapter") ∧
       lookupV rd (.str "last_scene") = lookupV tdd (.str "last_scene")) ∧
      (∀ k, k ≠ Value.str "last_chapter" → k ≠ Value.str "last_scene" →
        lookupV rd k = lookupV ed k) := by
  unfold lastStep at h
  simp only [pyGet, pyGetD, Value.hashable, if_true, ite_true, bind_ok_l] at h
  rcases htlc : ((lookupV tdd (.str "last_chapter")).getD Value.none).truthy
    with _ | _
  · simp only [htlc, Bool.false_eq_true, if_false, ite_false, pure,
      Except.pure, bind_ok_l, Except.ok.injEq] at h
    refine ⟨ed, h.symm, ?_, fun k _ _ => rfl⟩
    intro h1
    rw [show vGet (Value.dict tdd) (.str "last_chapter") =
      (lookupV tdd (.str "last_chapter")).getD Value.none from rfl, htlc] at h1
    exact absurd h1 (by simp)
  · simp only [htlc, if_true, ite_true, bind_ok_l] at h
    rcases htls : ((lookupV tdd (.str "last_scene")).getD Value.none).truthy
      with _ | _
    · simp only [htls, pure, Except.pure, bind_ok_l, Bool.false_eq_true,
        if_false, ite_false, Except.ok.injEq] at h
      refine ⟨ed, h.symm, ?_, fun k _ _ => rfl⟩
      intro _ h2
      rw [show vGet (Value.dict tdd) (.str "last_scene") =
        (lookupV tdd (.str "last_scene")).getD Value.none from rfl, htls] at h2
      exact absurd h2 (by simp)
    · obtain ⟨v1, hv1, htv1⟩ := getD_truthy_some _ htlc
      obtain ⟨v2, hv2, htv2⟩ := getD_truthy_some _ htls
      simp only [htls, if_true, ite_true, pure, Except.pure, bind_ok_l,
        pyGetItem, Value.hashable, hv1, hv2, Option.getD_some, htv2,
        eq_self_iff_true, pySetItem, Except.ok.injEq] at h
      refine ⟨insertV (insertV ed (.str "last_chapter") v1)
        (.str "last_scene") v2, h.symm, fun _ _ => ?_, ?_⟩
      · constructor
        · rw [lookupV_insertV_ne _ _ _ _ (by decide), lookupV_insertV_self,
            hv1]
        · rw [lookupV_insertV_self, hv2]
      · intro k hk1 hk2
        rw [lookupV_insertV_ne _ _ _ _ hk2, lookupV_insertV_ne _ _ _ _ hk1]

theorem histAppend_fold_post :
    ∀ (hs : List Value) (keys0 : List String) (v out : Value)
      (vels : List Value),
    pyIter v = .ok vels →
    (∀ e ∈ vels, e.isDict = true) →
    (∀ s, s ∈ keys0 → s ∈ vels.map entryKeyT) →
    hs.foldlM (histAppendStep keys0) v = .ok out →
    ∃ outels, pyIter out = .ok outels ∧
      (∀ e ∈ outels, e.isDict = true) ∧
      (∀ s, s ∈ vels.map entryKeyT → s ∈ outels.map entryKeyT) ∧
      (∀ e ∈ hs, e.isDict = true ∧ entryKeyT e ∈ outels.map entryKeyT) := by
  intro hs
  induction hs with
  | nil =>
      intro keys0 v out vels hv hds hk0 h
      simp only [List.foldlM, pure, Except.pure, Except.ok.injEq] at h
      exact ⟨vels, h ▸ hv, hds, fun s hs2 => hs2, by simp⟩
  | cons e rest ih =>
      intro keys0 v out vels hv hds hk0 h
      simp only [List.foldlM] at h
      obtain ⟨mid, h1, h2⟩ := bindOk h
      simp only [histAppendStep] at h1
      obtain ⟨k, hk, hmid⟩ := bindOk h1
      obtain ⟨hde, hke⟩ := entryKey_inv e k hk
      subst hke
      by_cases hmem : keys0.contains (entryKeyT e) = true
      · simp only [hmem, if_true, ite_true, pure, Except.pure,
          Except.ok.injEq] at hmid
        rw [← hmid] at h2
        obtain ⟨outels, ho1, ho2, ho3, ho4⟩ :=
          ih keys0 v out vels hv hds hk0 h2
        refine ⟨outels, ho1, ho2, ho3, ?_⟩
        intro x hx
        rcases List.mem_cons.mp hx with rfl | hx2
        · exact ⟨hde, ho3 _ (hk0 _ (by simpa using hmem))⟩
        · exact ho4 x hx2
      · simp only [hmem, Bool.false_eq_true, if_false, ite_false] at hmid
        cases v with
        | list xs =>
            simp only [pyAppend, Except.ok.injEq] at hmid
            have hvels : vels = xs := by
              simp [pyIter] at hv
              exact hv.symm
            subst hvels
            rw [← hmid] at h2
            have hds2 : ∀ x ∈ vels ++ [e], x.isDict = true := by
              intro x hx
              rcases List.mem_append.mp hx with hx1 | hx1
              · exact hds x hx1
              · rcases List.mem_singleton.mp hx1 with rfl
                exact hde
            have hk02 : ∀ s, s ∈ keys0 → s ∈ (vels ++ [e]).map entryKeyT := by
              intro s hs2
              rw [List.map_append]
              exact List.mem_append_left _ (hk0 s hs2)
            obtain ⟨outels, ho1, ho2, ho3, ho4⟩ :=
              ih keys0 (.list (vels ++ [e])) out (vels ++ [e]) rfl hds2
                hk02 h2
            have hmono : ∀ s, s ∈ vels.map entryKeyT →
                s ∈ outels.map entryKeyT := by
              intro s hs2
              apply ho3
              rw [List.map_append]
              exact List.mem_append_left _ hs2
            refine ⟨outels, ho1, ho2, hmono, ?_⟩
            intro x hx
            rcases List.mem_cons.mp hx with rfl | hx2
            · refine ⟨hde, ho3 _ ?_⟩
              rw [List.map_append]
              exact List.mem_append_right _ (by simp)
            · exact ho4 x hx2
        | none => simp [pyAppend] at hmid
        | str s2 => simp [pyAppend] at hmid
        | int n => simp [pyAppend] at hmid
        | dict d => simp [pyAppend] at hmid

theorem histStep_post (ed tdd : PyDict) (r : Value)
    (h : histStep (.dict ed) (.dict tdd) = .ok r) :
    ∃ rd : PyDict, r = .dict rd ∧
      (∀ tdh, lookupV tdd (.str "development_history") = some tdh →
        tdh.truthy = true →
        ∃ nels mhv mels, pyIter tdh = .ok nels ∧
          lookupV rd (.str "development_history") = some mhv ∧
          pyIter mhv = .ok mels ∧
          (∀ e ∈ mels, e.isDict = true) ∧
          (∀ e ∈ nels, e.isDict = true ∧
            (mels.map entryKeyT).contains (entryKeyT e) = true)) ∧
      (∀ k, k ≠ Value.str "development_history" →
        lookupV rd k = lookupV ed k) ∧
      (∀ hs ehs, lookupV tdd (.str "development_history") = some (.list hs) →
        (Value.list hs).truthy = true →
        (lookupV ed (.str "development_history")).getD (.list []) = .list ehs →
        lookupV rd (.str "development_history") =
          some (.list (ehs ++ hs.filter
            (fun e => !((ehs.map entryKeyT).contains (entryKeyT e)))))) := by
  unfold histStep at h
  rcases hpc : lookupV tdd (.str "development_history") with _ | tdh
  · simp only [pyContains, Value.hashable, if_true, ite_true, hpc,
      Option.isSome_none, Bool.false_eq_true, if_false, ite_false,
      bind_ok_l, pure, Except.pure, Except.ok.injEq] at h
    refine ⟨ed, h.symm, ?_, fun k _ => rfl, ?_⟩
    · intro tdh hl
      exact absurd hl (by simp)
    · intro hs ehs hl
      exact absurd hl (by simp)
  · simp only [pyContains, Value.hashable, if_true, ite_true, hpc,
      Option.isSome_some, bind_ok_l, pyGetItem, pure, Except.pure] at h
    rcases httr : tdh.truthy with _ | _
    · simp only [httr, Bool.false_eq_true, if_false, ite_false, bind_ok_l,
        pure, Except.pure, Except.ok.injEq] at h
      refine ⟨ed, h.symm, ?_, fun k _ => rfl, ?_⟩
      · intro tdh2 hl ht2
        cases Option.some.inj hl
        rw [ht2] at httr
        exact absurd httr (by simp)
      · intro hs ehs hl ht2
        cases Option.some.inj hl
        rw [ht2] at httr
        exact absurd httr (by simp)
    · simp only [httr, if_true, ite_true, bind_ok_l, pure, Except.pure,
        pyGetD, Value.hashable] at h
      obtain ⟨ehList, hEL, h⟩ := bindOk h
      obtain ⟨keys0, hK, h⟩ := bindOk h
      obtain ⟨nhList, hNL, h⟩ := bindOk h
      obtain ⟨out, hFold, h⟩ := bindOk h
      obtain ⟨hkeys, hdicts⟩ := entryKeysAcc_fold_inv ehList [] keys0 hK
      rw [List.nil_append] at hkeys
      subst hkeys
      have hpost := histAppend_fold_post nhList (ehList.map entryKeyT)
        ((lookupV ed (.str "development_history")).getD (.list [])) out
        ehList hEL hdicts (fun s hs2 => hs2) hFold
      obtain ⟨outels, ho1, ho2, ho3, ho4⟩ := hpost
      simp only [hFold, bind_ok_l, pySetItem, Value.hashable, if_true,
        ite_true, Except.ok.injEq] at h
      refine ⟨insertV ed (.str "development_history") out, h.symm, ?_, ?_, ?_⟩
      · intro tdh2 hl ht2
        cases Option.some.inj hl
        refine ⟨nhList, out, outels, hNL, ?_, ho1, ho2, ?_⟩
        · rw [lookupV_insertV_self]
        · intro e he
          obtain ⟨hd1, hd2⟩ := ho4 e he
          exact ⟨hd1, by simpa using hd2⟩
      · intro k hk
        exact lookupV_insertV_ne ed (.str "development_history") k out hk
      · intro hs ehs hl ht2 hed
        cases Option.some.inj hl
        rw [hed] at hFold
        have hehList : ehList = ehs := by
          rw [hed] at hEL
          simpa [pyIter] using hEL.symm
        subst hehList
        have hnh : nhList = hs := by
          simpa [pyIter] using hNL.symm
        subst hnh
        obtain ⟨hout, _⟩ := histAppend_fold_inv nhList
          (ehList.map entryKeyT) ehList out hFold
        rw [lookupV_insertV_self, hout]

/-- Re-applying a thread delta to an already-merged thread is a no-op. -/
theorem mergePlotThreadData_idem (et td mt : Value)
    (h : mergePlotThreadData et td = .ok mt) :
    mergePlotThreadData mt td = .ok mt := by
  unfold mergePlotThreadData at h
  obtain ⟨a, h1, h⟩ := bindOk h
  obtain ⟨b, h2, h⟩ := bindOk h
  obtain ⟨tdd, ed, ad, htd, het, ha, hst1, hpres1⟩ := statusStep_post et td a h1
  subst htd
  subst ha
  obtain ⟨bd, hb, hlc2, hpres2⟩ := lastStep_post ad tdd b h2
  subst hb
  obtain ⟨md, hm, hdh3, hpres3, _⟩ := histStep_post bd tdd mt h
  subst hm
  apply mergePlotThreadData_noop
  · rw [hpres3 _ (by decide), hpres2 _ (by decide) (by decide)]
    exact hst1
  · intro htc hts
    obtain ⟨f1, f2⟩ := hlc2 htc hts
    exact ⟨by rw [hpres3 _ (by decide)]; exact f1,
      by rw [hpres3 _ (by decide)]; exact f2⟩
  · exact hdh3

/-- A plot-thread value of the declared record shape. -/
def WfThread (td : Value) : Prop :=
  ∃ tdd : PyDict, td = .dict tdd ∧
    (vGet td (.str "development_history") = Value.none ∨
     ∃ hs : List Value, vGet td (.str "development_history") = .list hs ∧
       ∀ e ∈ hs, e.isDict = true)

/-- Merging a well-formed thread into itself is a no-op. -/
theorem mergePlotThreadData_self (td : Value) (wf : WfThread td) :
    mergePlotThreadData td td = .ok td := by
  obtain ⟨tdd, rfl, hw⟩ := wf
  apply mergePlotThreadData_noop
  · rfl
  · intro _ _
    exact ⟨rfl, rfl⟩
  · intro tdh hl htr
    rcases hw with hw | ⟨hs, hw, hds⟩
    · rw [show vGet (Value.dict tdd) (.str "development_history") =
        (lookupV tdd (.str "development_history")).getD Value.none from rfl,
        hl] at hw
      simp only [Option.getD_some] at hw
      rw [hw] at htr
      exact absurd htr (by simp [Value.truthy])
    · rw [show vGet (Value.dict tdd) (.str "development_history") =
        (lookupV tdd (.str "development_history")).getD Value.none from rfl,
        hl] at hw
      simp only [Option.getD_some] at hw
      subst hw
      refine ⟨hs, .list hs, hs, by simp [pyIter], hl, by simp [pyIter],
        hds, ?_⟩
      intro e he
      refine ⟨hds e he, ?_⟩
      simpa using List.mem_map_of_mem entryKeyT he

theorem plotThreadStep_shape (res : PyDict) (kv : Value × Value) (mid : Value)
    (h : plotThreadStep (.dict res) kv = .ok mid) :
    kv.1.hashable = true ∧ ∃ X, mid = .dict (insertV res kv.1 X) ∧
      (lookupV res kv.1 = Option.none → X = kv.2) ∧
      (∀ et, lookupV res kv.1 = some et →
        mergePlotThreadData et kv.2 = .ok X) := by
  obtain ⟨t, td⟩ := kv
  unfold plotThreadStep at h
  rcases hh : t.hashable with _ | _
  · simp [pyContains, hh, bind_err_l] at h
  · refine ⟨rfl, ?_⟩
    rcases hlk : lookupV res t with _ | et
    · simp only [pyContains, hh, if_true, ite_true, hlk, Option.isSome_none,
        Bool.false_eq_true, if_false, ite_false, bind_ok_l, pySetItem,
        Except.ok.injEq] at h
      refine ⟨td, h.symm, fun _ => rfl, ?_⟩
      intro et hl
      exact absurd hl (by simp)
    · simp only [pyContains, hh, if_true, ite_true, hlk, Option.isSome_some,
        bind_ok_l, pyGetItem] at h
      obtain ⟨X, hmt, h⟩ := bindOk h
      simp only [pySetItem, hh, if_true, ite_true, Except.ok.injEq] at h
      refine ⟨X, h.symm, fun hc => absurd hc (by simp), ?_⟩
      intro et2 hl
      cases Option.some.inj hl
      exact hmt

theorem plotThreadStep_list_err (xs : List Value) (kv : Value × Value) :
    plotThreadStep (.list xs) kv = .error .typeError := by
  obtain ⟨t, td⟩ := kv
  simp only [plotThreadStep, pyContains, bind_ok_l]
  by_cases hb : t ∈ xs
  · simp [hb, pyGetItem, bind_err_l]
  · simp [hb, pySetItem]

theorem plotFold_other :
    ∀ (items : PyDict) (res : PyDict) (R : Value) (k : Value),
    (∀ kv ∈ items, kv.1 ≠ k) →
    List.foldlM plotThreadStep (.dict res) items = .ok R →
    ∃ Rd : PyDict, R = .dict Rd ∧ lookupV Rd k = lookupV res k := by
  intro items
  induction items with
  | nil =>
      intro res R k _ h
      simp only [List.foldlM, pure, Except.pure, Except.ok.injEq] at h
      exact ⟨res, h.symm, rfl⟩
  | cons kv rest ih =>
      intro res R k hne h
      simp only [List.foldlM] at h
      obtain ⟨mid, h1, h2⟩ := bindOk h
      obtain ⟨hh, X, hmid, _, _⟩ := plotThreadStep_shape res kv mid h1
      subst hmid
      obtain ⟨Rd, hR, hlook⟩ := ih (insertV res kv.1 X) R k
        (fun kv2 hm => hne kv2 (List.mem_cons_of_mem _ hm)) h2
      refine ⟨Rd, hR, ?_⟩
      rw [hlook]
      exact lookupV_insertV_ne res kv.1 k X
        (Ne.symm (hne kv (List.mem_cons_self _ _)))

theorem plotFold_fwd :
    ∀ (items : PyDict) (res : PyDict) (R : Value),
    (items.map Prod.fst).Nodup →
    (∀ kv ∈ items, WfThread kv.2) →
    List.foldlM plotThreadStep (.dict res) items = .ok R →
    ∃ Rd : PyDict, R = .dict Rd ∧
      ∀ kv ∈ items, kv.1.hashable = true ∧
        ∃ mt, lookupV Rd kv.1 = some mt ∧
          mergePlotThreadData mt kv.2 = .ok mt := by
  intro items
  induction items with
  | nil =>
      intro res R _ _ h
      simp only [List.foldlM, pure, Except.pure, Except.ok.injEq] at h
      exact ⟨res, h.symm, by simp⟩
  | cons kv rest ih =>
      intro res R hnd hwf h
      simp only [List.foldlM] at h
      obtain ⟨mid, h1, h2⟩ := bindOk h
      obtain ⟨hh, X, hmid, hnew, hold⟩ := plotThreadStep_shape res kv mid h1
      subst hmid
      have hready : mergePlotThreadData X kv.2 = .ok X := by
        rcases hlk : lookupV res kv.1 with _ | et
        · rw [hnew hlk]
          exact mergePlotThreadData_self kv.2
            (hwf kv (List.mem_cons_self _ _))
        · exact mergePlotThreadData_idem et kv.2 X (hold et hlk)
      have hndc : (kv.1 :: rest.map Prod.fst).Nodup := by simpa using hnd
      have hnd2 := List.nodup_cons.mp hndc
      obtain ⟨Rd, hR, hrest⟩ := ih (insertV res kv.1 X) R hnd2.2
        (fun kv2 hm => hwf kv2 (List.mem_cons_of_mem _ hm)) h2
      have hother : ∀ kv2 ∈ rest, kv2.1 ≠ kv.1 := by
        intro kv2 hm hc
        exact hnd2.1 (List.mem_map.mpr ⟨kv2, hm, hc⟩)
      obtain ⟨Rd2, hR2, hlook⟩ := plotFold_other rest (insertV res kv.1 X) R
        kv.1 hother h2
      rw [hR] at hR2
      have hRd : Rd2 = Rd := (Value.dict.inj hR2).symm
      subst hRd
      refine ⟨Rd2, hR, ?_⟩
      intro kv2 hm
      rcases List.mem_cons.mp hm with rfl | hm2
      · refine ⟨hh, X, ?_, hready⟩
        rw [hlook]
        exact lookupV_insertV_self res kv2.1 X
      · exact hrest kv2 hm2

theorem plotFold_snd :
    ∀ (items : PyDict) (Rd : PyDict),
    (∀ kv ∈ items, kv.1.hashable = true ∧
      ∃ mt, lookupV Rd kv.1 = some mt ∧
        mergePlotThreadData mt kv.2 = .ok mt) →
    List.foldlM plotThreadStep (.dict Rd) items = .ok (.dict Rd) := by
  intro items
  induction items with
  | nil =>
      intro Rd _
      simp [List.foldlM, pure, Except.pure]
  | cons kv rest ih =>
      intro Rd hp
      obtain ⟨hh, mt, hlk, hmg⟩ := hp kv (List.mem_cons_self _ _)
      have hstep : plotThreadStep (.dict Rd) kv = .ok (.dict Rd) := by
        obtain ⟨t, td⟩ := kv
        simp only at hh hlk hmg
        simp only [plotThreadStep, pyContains, hh, if_true, ite_true, hlk,
          Option.isSome_some, bind_ok_l, pyGetItem, hmg, pySetItem,
          Except.ok.injEq, Value.dict.injEq]
        exact insertV_self Rd t mt hlk
      simp only [List.foldlM, hstep, bind_ok_l]
      exact ih Rd (fun kv2 hm => hp kv2 (List.mem_cons_of_mem _ hm))

/-- C9: the plot-thread development_history merge is an idempotent
dedup-append.  First conjunct: when a thread delta carries a truthy
development_history list, the per-thread merge (models.py lines 286-301)
produces exactly the existing history followed by those delta entries
whose composite key (built from chapter, scene and development) is not
already present among the existing entries.  Second conjunct: re-applying
the same plot-thread delta to the result of a successful merge returns
that result unchanged (so in particular every development_history keeps
the same length), for any delta whose thread names are distinct and whose
thread payloads are dicts with dict-entry histories. -/
theorem plotThreadDedupIdempotent :
    (∀ (ed tdd : PyDict) (r : Value) (hs ehs : List Value),
      mergePlotThreadData (.dict ed) (.dict tdd) = .ok r →
      lookupV tdd (.str "development_history") = some (.list hs) →
      (Value.list hs).truthy = true →
      (lookupV ed (.str "development_history")).getD (.list []) =
        .list ehs →
      ∃ rd : PyDict, r = .dict rd ∧
        lookupV rd (.str "development_history") =
          some (.list (ehs ++ hs.filter
            (fun e => !((ehs.map entryKeyT).contains (entryKeyT e)))))) ∧
    (∀ (D R : Value) (items : PyDict),
      (items.map Prod.fst).Nodup →
      (∀ kv ∈ items, WfThread kv.2) →
      merge_plot_threads D (.dict items) = .ok R →
      merge_plot_threads R (.dict items) = .ok R) := by
  constructor
  · intro ed tdd r hs ehs h hl ht he
    unfold mergePlotThreadData at h
    obtain ⟨a, h1, h⟩ := bindOk h
    obtain ⟨b, h2, h⟩ := bindOk h
    obtain ⟨tdd2, ed2, ad, htd2, het2, ha, hst1, hpres1⟩ :=
      statusStep_post (.dict ed) (.dict tdd) a h1
    have htdd2 : tdd = tdd2 := Value.dict.inj htd2
    subst htdd2
    have hed2 : ed = ed2 := Value.dict.inj het2
    subst hed2
    subst ha
    obtain ⟨bd, hb, _, hpres2⟩ := lastStep_post ad tdd b h2
    subst hb
    obtain ⟨md, hm, _, _, hchar⟩ := histStep_post bd tdd r h
    refine ⟨md, hm, ?_⟩
    apply hchar hs ehs hl ht
    rw [hpres2 _ (by decide) (by decide), hpres1 _ (by decide)]
    exact he
  · intro D R items hnd hwf h
    unfold merge_plot_threads at h ⊢
    obtain ⟨res0, hc, h⟩ := bindOk h
    obtain ⟨its, hi, h⟩ := bindOk h
    have hits : items = its := Except.ok.inj hi
    subst hits
    cases D with
    | dict dd =>
        have hres : Value.dict dd = res0 := Except.ok.inj hc
        subst hres
        obtain ⟨Rd, hR, hall⟩ := plotFold_fwd items dd R hnd hwf h
        subst hR
        simp only [pyCopy, pyItems, bind_ok_l]
        exact plotFold_snd items Rd hall
    | list xs =>
        have hres : Value.list xs = res0 := Except.ok.inj hc
        subst hres
        cases items with
        | nil =>
            simp only [List.foldlM, pure, Except.pure, Except.ok.injEq] at h
            subst h
            simp [pyCopy, pyItems, List.foldlM, pure, Except.pure, bind_ok_l]
        | cons kv rest =>
            simp [List.foldlM, plotThreadStep_list_err, bind_err_l] at h
    | none => simp [pyCopy] at hc
    | str s => simp [pyCopy] at hc
    | int n => simp [pyCopy] at hc

def c9e1 : Value := .dict [(.str "chapter", .str "1"),
  (.str "scene", .str "1"), (.str "development", .str "d1")]

def c9e2 : Value := .dict [(.str "chapter", .str "2"),
  (.str "scene", .str "1"), (.str "development", .str "d2")]

def c9ed : PyDict := [(.str "status", .str "open"),
  (.str "development_history", .list [c9e1])]

def c9tdd : PyDict := [(.str "status", .str "resolved"),
  (.str "development_history", .list [c9e1, c9e2])]

def c9rd : PyDict := [(.str "status", .str "resolved"),
  (.str "development_history", .list [c9e1, c9e2])]

/-- Witness for C9 at a concrete thread: an existing thread holding one
history entry merged with a delta repeating that entry plus a fresh one
appends only the fresh entry, and re-applying the same delta to the
merged document returns it unchanged. -/
theorem plotThreadDedupIdempotent_witness :
    (mergePlotThreadData (.dict c9ed) (.dict c9tdd) = .ok (.dict c9rd) ∧
     ∃ rd : PyDict, Value.dict c9rd = .dict rd ∧
       lookupV rd (.str "development_history") =
         some (.list ([c9e1] ++ [c9e1, c9e2].filter
           (fun e => !(([c9e1].map entryKeyT).contains (entryKeyT e)))))) ∧
    (merge_plot_threads (.dict [(.str "t1", .dict c9ed)])
        (.dict [(.str "t1", .dict c9tdd)]) =
      .ok (.dict [(.str "t1", .dict c9rd)]) ∧
     merge_plot_threads (.dict [(.str "t1", .dict c9rd)])
        (.dict [(.str "t1", .dict c9tdd)]) =
      .ok (.dict [(.str "t1", .dict c9rd)])) :=
  ⟨⟨by decide,
    plotThreadDedupIdempotent.1 c9ed c9tdd (.dict c9rd) [c9e1, c9e2] [c9e1]
      (by decide) (by decide) (by decide) (by decide)⟩,
   ⟨by decide,
    plotThreadDedupIdempotent.2 (.dict [(.str "t1", .dict c9ed)])
      (.dict [(.str "t1", .dict c9rd)]) [(.str "t1", .dict c9tdd)]
      (by decide)
      (by
        intro kv hm
        have he := List.mem_singleton.mp hm
        subst he
        exact ⟨c9tdd, rfl, Or.inr ⟨[c9e1, c9e2], rfl, by decide⟩⟩)
      (by decide)⟩⟩
